import Mathlib

/-!
Shallow embedding of `certbot_nginx/parser_obj.py`: the raw token tree, the
node hierarchy (Sentence / Include / Bloc / ServerBloc / Statements), hook
dispatch, include resolution through a shared file cache, the mutation
protocol and the virtual-host view derivation.

Modelling conventions:
* Raw token trees are `Raw` (a Python string-or-list tree).
* Parsed nodes are `Parsed`.  A `Statements` object is a list of children plus
  an optional trailing whitespace token; a `Bloc` carries its header words and
  its contents; a `ServerBloc` is a `Bloc` with `isServer = true` (the derived
  virtual-host view is recomputed by a pure function, matching the source
  where `_update_vhost` recomputes it wholesale from `contents`).
* An `Include` node stores the list of matched filenames.  The shared
  `parsed_files` mapping of the parse context is modelled as an explicit
  store (`Cache`) threaded through parsing; an include dereferences the store
  when it is expanded.  This mirrors Python object identity: every inclusion
  site of a file sees the single store entry for that filename.
* Python exceptions are `RunErr` values: `MisconfigurationError` raised by
  dispatch / shape checks / the uniqueness check, `IndexError` raised by
  out-of-range word indexing, `TypeError` for hashing a list, IO errors from
  `open`, plus a `fuel` marker for the unbounded recursion the source
  documents (include cycles).
* Recursion through included files and include expansion is fuel-indexed:
  every recursive call decreases the fuel, so all functions are structurally
  recursive and computable.  The Python code diverges exactly where no fuel
  suffices.
-/

namespace ParserObj

/-- A raw node produced by the external tokenizer: a string token or a list. -/
inductive Raw where
  | tok (s : String)
  | lst (xs : List Raw)
deriving Repr

/-- Python `str.isspace`: nonempty and all whitespace characters. -/
def pyIsSpace (s : String) : Bool :=
  s ≠ "" && s.toList.all fun c => c ∈ [' ', '\t', '\n', '\r', '\x0b', '\x0c']

/-- Python `word.strip('"\'')`: remove all leading and trailing quote chars. -/
def stripQuotes (s : String) : String :=
  let isQ : Char → Bool := fun c => c = '"' || c = '\''
  String.mk (((s.toList.dropWhile isQ).reverse.dropWhile isQ).reverse)

/-- `Sentence.words`: the whitespace-filtered, quote-stripped view of `_data`. -/
def wordsOf (data : List String) : List String :=
  (data.filter fun w => ¬ pyIsSpace w).map stripQuotes

/-- `spaces_after_newline`: for a whitespace token, the spaces after its final
newline (the whole token when it has no newline); `""` otherwise. -/
def spacesAfterNewline (w : String) : String :=
  if ¬ pyIsSpace w then ""
  else String.mk ((w.toList.reverse.takeWhile fun c => c ≠ '\n').reverse)

/-- `_space_list`: insert a single space between adjacent non-space tokens. -/
def spaceList : List String → List String
  | [] => []
  | [x] => [x]
  | x :: y :: rest =>
    if ¬ pyIsSpace x ∧ ¬ pyIsSpace y then x :: " " :: spaceList (y :: rest)
    else x :: spaceList (y :: rest)

/-- Python `'server' in x` where `x` is a raw node: substring test on a
string, element equality on a list. -/
def rawContains (x : Raw) (needle : String) : Bool :=
  match x with
  | .tok s => (List.range (s.length + 1)).any fun i =>
      needle.toList.isPrefixOf (s.toList.drop i)
  | .lst xs => xs.any fun r =>
      match r with
      | .tok s => s = needle
      | .lst _ => false

/-- `REPEATABLE_DIRECTIVES`. -/
def REPEATABLE_DIRECTIVES : List String := ["server_name", "listen", "include", "rewrite"]

/-- `COMMENT`. -/
def COMMENT : String := " managed by Certbot"

/-- `COMMENT_BLOCK`. -/
def COMMENT_BLOCK : List String := ["#", COMMENT]

/-- The node hierarchy.  `sentence` and `incl` store the raw `_data` token
list of the `Sentence`; `incl` additionally stores the filenames its glob
matched (the keys of its `parsed` mapping — the documents themselves live in
the shared `Cache`).  `bloc` stores the header sentence's tokens, the
contents' children and the contents' trailing whitespace; `isServer`
distinguishes `ServerBloc`.  `stmts` is a `Statements` node. -/
inductive Parsed where
  | sentence (data : List String)
  | incl (data : List String) (files : List String)
  | bloc (isServer : Bool) (names : List String) (contents : List Parsed) (ctrail : Option String)
  | stmts (data : List Parsed) (strail : Option String)
deriving Repr

/-- A parsed file: the `Statements` object registered in `parsed_files`. -/
structure Doc where
  data : List Parsed
  trailing : Option String
deriving Repr

/-- The shared `parsed_files` mapping, keyed by filename.  Insertion shadows
(a Python dict assignment); lookup takes the most recent binding. -/
abbrev Cache := List (String × Doc)

/-- Look a filename up in the shared file store. -/
def cacheLookup (c : Cache) (f : String) : Option Doc :=
  match c with
  | [] => none
  | (g, d) :: rest => if g = f then some d else cacheLookup rest f

/-- Register a parsed file (`context.parsed_files[filename] = statements`). -/
def cacheInsert (f : String) (d : Doc) (c : Cache) : Cache := (f, d) :: c

/-- Python exceptions raised by the parser core, plus a `fuel` marker for the
unbounded include recursion the source documents as a known edge case. -/
inductive RunErr where
  | dispatch
  | malformed
  | indexError
  | typeError
  | ioError
  | conflict (name : String)
  | brokenRef
  | fuel
deriving Repr, DecidableEq

/-- Results of operations that can raise. -/
abbrev Res (α : Type) := Except RunErr α

/-- `isinstance(x, Sentence)`: `Include` is a subclass of `Sentence`. -/
def sentInst : Parsed → Bool
  | .sentence _ => true
  | .incl _ _ => true
  | _ => false

/-- The `_data` token list of a `Sentence` instance. -/
def sentData : Parsed → Option (List String)
  | .sentence d => some d
  | .incl d _ => some d
  | _ => none

/-- The `words` view of a `Sentence` instance (`[]` for non-sentences; only
queried behind `sentInst`). -/
def wordsOfP (p : Parsed) : List String :=
  match sentData p with
  | some d => wordsOf d
  | none => []

/-- `Sentence.is_comment`. -/
def isComment (data : List String) : Bool :=
  match (wordsOf data).head? with
  | some w => w = "#"
  | none => false

/-- `is_certbot_comment`: a `Sentence` instance both of whose marker tokens
occur among its words (a membership test in the source, not equality). -/
def isCertbotComment (p : Parsed) : Bool :=
  sentInst p && COMMENT_BLOCK.all fun item => item ∈ wordsOfP p

/-- `certbot_comment(context)` with the default four preceding spaces. -/
def certbotComment : Parsed :=
  .sentence ("    " :: COMMENT_BLOCK)

mutual
/-- `WithLists.dump` / `Sentence.dump` / `Statements.dump` on one node:
`include_spaces = false` gives the structural (words-only) dump, `true`
reproduces the raw token tree. -/
def dumpP (sp : Bool) : Parsed → Raw
  | .sentence d => .lst ((if sp then d else wordsOf d).map .tok)
  | .incl d _ => .lst ((if sp then d else wordsOf d).map .tok)
  | .bloc _ ns cs ct =>
      .lst [.lst ((if sp then ns else wordsOf ns).map .tok),
            .lst (dumpL sp cs ++ if sp then (ct.map .tok).toList else [])]
  | .stmts ds st =>
      .lst (dumpL sp ds ++ if sp then (st.map .tok).toList else [])
/-- Dump every child of a `Statements`. -/
def dumpL (sp : Bool) : List Parsed → List Raw
  | [] => []
  | p :: rest => dumpP sp p :: dumpL sp rest
end

mutual
/-- `Statements.iterate_expanded` over a child list: each `Include` child is
replaced by the expansion of its resolved documents followed by the `Include`
node itself.  Fuel-indexed: the source has no cycle guard and diverges on
include cycles. -/
def expandL : Nat → Cache → List Parsed → Res (List Parsed)
  | 0, _, _ => .error .fuel
  | _ + 1, _, [] => .ok []
  | n + 1, cache, p :: rest => do
    let head ← match p with
      | .incl _ files => do
          let subs ← expandF n cache files
          pure (subs ++ [p])
      | _ => pure [p]
    let tail ← expandL n cache rest
    pure (head ++ tail)
/-- Expansion of the documents an include's filenames resolve to, in order.
Dereferences the shared store, mirroring `elem.parsed.values()`. -/
def expandF : Nat → Cache → List String → Res (List Parsed)
  | 0, _, _ => .error .fuel
  | _ + 1, _, [] => .ok []
  | n + 1, cache, f :: fs => do
    match cacheLookup cache f with
    | none => .error .brokenRef
    | some d => do
        let inner ← expandL n cache d.data
        let tail ← expandF n cache fs
        pure (inner ++ tail)
end

/-- One step of `Sentence.matches_list`: scan the words against the pattern
(`pat` is the raw Python list, whose elements may themselves be lists).
Mirrors the source exactly: reaching the end of the words returns true, a
`'#'` word exactly at position `len(pat)` returns true, indexing the pattern
out of range raises IndexError, a mismatch returns false. -/
def matchesGo (pat : List Raw) : Nat → List String → Res Bool
  | _, [] => .ok true
  | i, w :: rest =>
    if w = "#" ∧ i = pat.length then .ok true
    else
      match pat.get? i with
      | none => .error .indexError
      | some (.lst _) => .ok false
      | some (.tok t) => if w = t then matchesGo pat (i + 1) rest else .ok false

/-- `Sentence.matches_list` on a word list. -/
def matchesWords (ws : List String) (pat : List Raw) : Res Bool :=
  matchesGo pat 0 ws

/-- Scan an expanded child sequence for a sentence matching the pattern
(the loop body of `contains_exact_directive`). -/
def scanContains (pat : List Raw) : List Parsed → Res Bool
  | [] => .ok false
  | p :: rest =>
    if sentInst p then
      match matchesWords (wordsOfP p) pat with
      | .error e => .error e
      | .ok true => .ok true
      | .ok false => scanContains pat rest
    else scanContains pat rest

/-- `Statements.contains_exact_directive` (expands includes). -/
def containsExactF (n : Nat) (cache : Cache) (L : List Parsed) (pat : List Raw) : Res Bool :=
  match expandL n cache L with
  | .error e => .error e
  | .ok ex => scanContains pat ex

/-- `sentence[0]` (`__getitem__` 0 = `words[0]`): IndexError when empty. -/
def headWord (p : Parsed) : Res String :=
  match (wordsOfP p).head? with
  | some w => .ok w
  | none => .error .indexError

/-- The filtering loop of `get_directives` over an expanded sequence:
`Sentence` instances whose first word equals the name. -/
def filterDirectives (name : String) : List Parsed → Res (List Parsed)
  | [] => .ok []
  | p :: rest =>
    if sentInst p then
      match headWord p with
      | .error e => .error e
      | .ok w =>
        match filterDirectives name rest with
        | .error e => .error e
        | .ok tail => .ok (if w = name then p :: tail else tail)
    else filterDirectives name rest

/-- `Statements.get_directives` (expands includes). -/
def getDirectivesF (n : Nat) (cache : Cache) (L : List Parsed) (name : String) : Res (List Parsed) :=
  match expandL n cache L with
  | .error e => .error e
  | .ok ex => filterDirectives name ex

/-- `Statements._get_statement_index`: index of the first direct `Sentence`
child satisfying the match function (the source returns -1 for "none"). -/
def getStatementIndexF (matchF : Parsed → Res Bool) : List Parsed → Res (Option Nat)
  | [] => .ok none
  | p :: rest =>
    if sentInst p then
      match matchF p with
      | .error e => .error e
      | .ok true => .ok (some 0)
      | .ok false =>
        match getStatementIndexF matchF rest with
        | .error e => .error e
        | .ok r => .ok (r.map (· + 1))
    else
      match getStatementIndexF matchF rest with
      | .error e => .error e
      | .ok r => .ok (r.map (· + 1))

/-- The node kinds the hook tables can instantiate. -/
inductive NodeKind where
  | sentence
  | incl
  | bloc
  | serverBloc
  | statements
deriving Repr, DecidableEq

/-- `_is_bloc`: a 2-element list whose second element is a list. -/
def isBlocRaw : Raw → Bool
  | .lst [_, .lst _] => true
  | _ => false

/-- `_is_sentence`: a list of only strings. -/
def isSentenceRaw : Raw → Bool
  | .lst xs => xs.all fun r => match r with | .tok _ => true | .lst _ => false
  | .tok _ => false

/-- `isinstance(list_, list)`. -/
def isListRaw : Raw → Bool
  | .lst _ => true
  | .tok _ => false

/-- A hook table: an ordered sequence of (predicate, node kind) pairs. -/
abbrev Hooks := List ((Raw → Bool) × NodeKind)

/-- `DEFAULT_PARSING_HOOKS`. -/
def DEFAULT_PARSING_HOOKS : Hooks :=
  [(isBlocRaw, .bloc), (isSentenceRaw, .sentence), (isListRaw, .statements)]

/-- `NGINX_PARSING_HOOKS`: the two nginx-specific rules prepended to the
defaults. -/
def NGINX_PARSING_HOOKS : Hooks :=
  [(fun r => isBlocRaw r &&
      (match r with | .lst (x :: _) => rawContains x "server" | _ => false), .serverBloc),
   (fun r => isSentenceRaw r && rawContains r "include", .incl)] ++ DEFAULT_PARSING_HOOKS

/-- `_choose_parser`: first hook whose predicate matches; dispatch error
(`MisconfigurationError`, "none of the parsing hooks succeeded") otherwise. -/
def chooseParser (hooks : Hooks) (r : Raw) : Res NodeKind :=
  match hooks with
  | [] => .error .dispatch
  | (pred, k) :: rest => if pred r then .ok k else chooseParser rest r

/-- The structured listen-address record produced by the external
`obj.Addr.fromstring` helper (out of scope for the core, modelled opaquely). -/
structure NAddr where
  host : String
  port : String
  ssl : Bool
  isDefault : Bool
deriving Repr, DecidableEq

/-- The derived virtual-host view of a `ServerBloc`. -/
structure VHost where
  addrs : Finset NAddr
  ssl : Bool
  names : Finset String
deriving DecidableEq

/-- The external filesystem collaborator: `glob` expands a pattern under the
working directory; `read` is `open` + `load_raw` — `none` is an IO error from
`open`, `some none` a tokenizer `ParseException` (the source logs it and
parses the empty list), `some (some r)` the tokenized content. -/
structure Fs where
  glob : String → String → List String
  read : String → String → Option (Option Raw)

/-- Everything a parse context carries besides the mutable file store: the
hook table, the filesystem, the working directory, and the external
address-parsing helper. -/
structure Env where
  hooks : Hooks
  fs : Fs
  cwd : String
  addrParse : String → Option NAddr

/-- `" ".join`. -/
def joinSp (ws : List String) : String := String.intercalate " " ws

/-- The `ssl` directive loop of `_update_vhost`: `ssl.words[1] == 'on'` sets
the flag (and raises IndexError on a one-word `ssl` directive). -/
def sslFold (acc : Bool) : List Parsed → Res Bool
  | [] => .ok acc
  | p :: rest =>
    match (wordsOfP p).get? 1 with
    | none => .error .indexError
    | some w => sslFold (acc || (w = "on")) rest

/-- `ServerBloc._update_vhost`: recompute the address set, ssl flag and name
set from the include-expanded directives of the contents. -/
def updateVhostF (n : Nat) (ap : String → Option NAddr) (cache : Cache) (L : List Parsed) : Res VHost :=
  match getDirectivesF n cache L "listen" with
  | .error e => .error e
  | .ok listens =>
    let s0 : Finset NAddr × Bool := (∅, false)
    let addrSsl := listens.foldl
      (fun acc p =>
        match ap (joinSp (wordsOfP p).tail) with
        | some a => (insert a acc.1, acc.2 || a.ssl)
        | none => acc) s0
    match getDirectivesF n cache L "server_name" with
    | .error e => .error e
    | .ok snames =>
      let names := snames.foldl
        (fun acc p => (wordsOfP p).tail.foldl (fun s w => insert w s) acc)
        (∅ : Finset String)
      match getDirectivesF n cache L "ssl" with
      | .error e => .error e
      | .ok ssls =>
        match sslFold addrSsl.2 ssls with
        | .error e => .error e
        | .ok ssl => .ok ⟨addrSsl.1, ssl, names⟩

/-- Split a trailing pure-whitespace token off a raw statement list
(`Statements.parse`). -/
def stripTrailing (l : List Raw) : List Raw × Option String :=
  match l.getLast? with
  | some (.tok s) => if pyIsSpace s then (l.dropLast, some s) else (l, none)
  | _ => (l, none)

/-- The token strings of a raw list, when every element is a token.
(The Python `Sentence.parse` stores arbitrary elements and only fails on the
first later `words` access; the embedding surfaces that type error at parse
time instead.) -/
def asStrings : List Raw → Option (List String)
  | [] => some []
  | .tok s :: rest => (asStrings rest).map (s :: ·)
  | .lst _ :: _ => none

mutual
/-- `parse_raw`: dispatch on the hook table, then run the chosen node kind's
`parse` against the raw node, threading the shared file store.  Fuel-indexed
(the include recursion has no cycle guard). -/
def parseRawF : Nat → Env → Bool → Raw → Cache → Res (Parsed × Cache)
  | 0, _, _, _, _ => .error .fuel
  | n + 1, env, addSp, raw, cache =>
    match chooseParser env.hooks raw with
    | .error e => .error e
    | .ok .statements =>
      match raw with
      | .tok _ => .error .malformed
      | .lst l =>
        let st := stripTrailing l
        match parseListF n env addSp st.1 cache with
        | .error e => .error e
        | .ok (ps, c2) => .ok (.stmts ps st.2, c2)
    | .ok .sentence =>
      match raw with
      | .tok _ => .error .malformed
      | .lst l =>
        match asStrings l with
        | none => .error .malformed
        | some ws => .ok (.sentence (if addSp then spaceList ws else ws), cache)
    | .ok .incl =>
      match raw with
      | .tok _ => .error .malformed
      | .lst l =>
        match asStrings l with
        | none => .error .malformed
        | some ws0 =>
          let data := if addSp then spaceList ws0 else ws0
          match (wordsOf data).get? 1 with
          | none => .error .indexError
          | some pat =>
            match parseFilesF n env (env.fs.glob env.cwd pat) cache with
            | .error e => .error e
            | .ok c2 => .ok (.incl data (env.fs.glob env.cwd pat), c2)
    | .ok .bloc => parseBlocF n env addSp raw cache false
    | .ok .serverBloc => parseBlocF n env addSp raw cache true
/-- `Bloc.parse` (and, with `isServer`, `ServerBloc.parse`, which additionally
recomputes the virtual-host view and propagates any error it raises). -/
def parseBlocF : Nat → Env → Bool → Raw → Cache → Bool → Res (Parsed × Cache)
  | 0, _, _, _, _, _ => .error .fuel
  | n + 1, env, addSp, raw, cache, isServer =>
    match raw with
    | .lst [a, b] =>
      match a with
      | .tok _ => .error .malformed
      | .lst la =>
        match asStrings la with
        | none => .error .malformed
        | some ns0 =>
          let ns := if addSp then spaceList (ns0 ++ [" "]) else ns0
          match b with
          | .tok _ => .error .malformed
          | .lst lb =>
            let st := stripTrailing lb
            match parseListF n env addSp st.1 cache with
            | .error e => .error e
            | .ok (cs, c2) =>
              if isServer then
                match updateVhostF n env.addrParse c2 cs with
                | .error e => .error e
                | .ok _ => .ok (.bloc true ns cs st.2, c2)
              else .ok (.bloc false ns cs st.2, c2)
    | _ => .error .malformed
/-- `Statements.parse`'s dispatch loop over the raw children. -/
def parseListF : Nat → Env → Bool → List Raw → Cache → Res (List Parsed × Cache)
  | 0, _, _, _, _ => .error .fuel
  | _ + 1, _, _, [], cache => .ok ([], cache)
  | n + 1, env, addSp, r :: rest, cache =>
    match parseRawF n env addSp r cache with
    | .error e => .error e
    | .ok (p, c2) =>
      match parseListF n env addSp rest c2 with
      | .error e => .error e
      | .ok (ps, c3) => .ok (p :: ps, c3)
/-- The per-file loop of `Include.parse`: reuse the store entry when the
filename was already parsed, load and register it otherwise. -/
def parseFilesF : Nat → Env → List String → Cache → Res Cache
  | 0, _, _, _ => .error .fuel
  | _ + 1, _, [], cache => .ok cache
  | n + 1, env, f :: fs, cache =>
    match cacheLookup cache f with
    | some _ => parseFilesF n env fs cache
    | none =>
      match loadFromF n env f cache with
      | .error e => .error e
      | .ok c2 => parseFilesF n env fs c2
/-- `Statements.load_from`: read and tokenize the file (a tokenizer failure
yields the empty document), parse it as a `Statements`, and register it in
the shared store keyed by the filename — only after parsing finishes. -/
def loadFromF : Nat → Env → String → Cache → Res Cache
  | 0, _, _, _ => .error .fuel
  | n + 1, env, f, cache =>
    match env.fs.read env.cwd f with
    | none => .error .ioError
    | some rawOpt =>
      match rawOpt.getD (.lst []) with
      | .tok _ => .error .malformed
      | .lst l =>
        let st := stripTrailing l
        match parseListF n env false st.1 cache with
        | .error e => .error e
        | .ok (ps, c2) => .ok (cacheInsert f ⟨ps, st.2⟩ c2)
end

mutual
/-- `get_tabs` of one node: a sentence inspects its first raw token
(IndexError when `_data` is empty), a bloc asks its header, a statements node
asks its first child (`""` when empty). -/
def getTabsP : Parsed → Res String
  | .sentence d =>
    match d.head? with
    | some w => .ok (spacesAfterNewline w)
    | none => .error .indexError
  | .incl d _ =>
    match d.head? with
    | some w => .ok (spacesAfterNewline w)
    | none => .error .indexError
  | .bloc _ ns _ _ =>
    match ns.head? with
    | some w => .ok (spacesAfterNewline w)
    | none => .error .indexError
  | .stmts ds _ => getTabsL ds
/-- `Statements.get_tabs`: the first child's tabbing, `""` when empty. -/
def getTabsL : List Parsed → Res String
  | [] => .ok ""
  | p :: _ => getTabsP p
end

mutual
/-- `set_tabs` of one node (a new statement being inserted): a sentence gains
a leading `'\n' ++ tabs` token; a bloc indents its header and its contents by
one extra level and sets the contents' trailing whitespace from the bloc
header's (freshly set) tabbing; a statements node sets its children and uses
the tabbing its parent computed for it (`tabs`, since `add_statement` passes
`self.get_tabs()` of the parent the context points back to). -/
def setTabsP (tabs : String) : Parsed → Parsed
  | .sentence d => .sentence (("\n" ++ tabs) :: d)
  | .incl d fs => .incl (("\n" ++ tabs) :: d) fs
  | .bloc sv ns cs _ =>
    .bloc sv (("\n" ++ tabs) :: ns) (setTabsL (tabs ++ "    ") cs)
      (some ("\n" ++ spacesAfterNewline ("\n" ++ tabs)))
  | .stmts ds _ => .stmts (setTabsL tabs ds) (some ("\n" ++ tabs))
/-- `set_tabs` mapped over children. -/
def setTabsL (tabs : String) : List Parsed → List Parsed
  | [] => []
  | p :: rest => setTabsP tabs p :: setTabsL tabs rest
end

/-- Whether a freshly parsed statement is a comment sentence (the guard of
the marker insertion in `add_statement`). -/
def isCommentNode (p : Parsed) : Bool :=
  sentInst p && (match sentData p with | some d => isComment d | none => false)

/-- `Statements.add_statement`: parse the statement with spaces, indent it,
insert it at the front or back, and insert the managed marker right after it
unless the statement is itself a comment sentence.  Returns the new child
list, the inserted node and the updated store. -/
def addStatementF (n : Nat) (env : Env) (cache : Cache) (L : List Parsed)
    (stmt : Raw) (atTop : Bool) : Res (List Parsed × Parsed × Cache) :=
  match parseRawF n env true stmt cache with
  | .error e => .error e
  | .ok (p, c2) =>
    match getTabsL L with
    | .error e => .error e
    | .ok tabs =>
      let p2 := setTabsP tabs p
      let Li := if atTop then (p2 :: L, 0) else (L ++ [p2], L.length)
      let L3 := if isCommentNode p2 then Li.1
                else Li.1.insertIdx (Li.2 + 1) certbotComment
      .ok (L3, p2, c2)

/-- `Statements.replace_statement`: replace the first matching direct
sentence in place (falling back to `add_statement` when none matches) and
make sure a managed marker follows the replacement. -/
def replaceStatementF (n : Nat) (env : Env) (cache : Cache) (L : List Parsed)
    (stmt : Raw) (matchF : Parsed → Res Bool) (atTop : Bool) : Res (List Parsed × Cache) :=
  match getStatementIndexF matchF L with
  | .error e => .error e
  | .ok none =>
    match addStatementF n env cache L stmt atTop with
    | .error e => .error e
    | .ok (L2, _, c2) => .ok (L2, c2)
  | .ok (some i) =>
    match parseRawF n env true stmt cache with
    | .error e => .error e
    | .ok (p, c2) =>
      match getTabsL L with
      | .error e => .error e
      | .ok tabs =>
        let p2 := setTabsP tabs p
        let L2 := L.set i p2
        let L3 :=
          match L2.get? (i + 1) with
          | some q => if isCertbotComment q then L2 else L2.insertIdx (i + 1) certbotComment
          | none => L2.insertIdx (i + 1) certbotComment
        .ok (L3, c2)

/-- The removal loop of `remove_statements`: delete the first matching direct
sentence and, when the element now at its position is a managed marker, that
marker too; repeat until no match remains.  The fuel is an upper bound on the
number of iterations; `removeStatementsF` supplies one that always suffices.
On an exception the already-performed deletions remain (in-place mutation). -/
def removeGo (matchF : Parsed → Res Bool) : Nat → List Parsed → List Parsed × Option RunErr
  | 0, L => (L, some .fuel)
  | n + 1, L =>
    match getStatementIndexF matchF L with
    | .error e => (L, some e)
    | .ok none => (L, none)
    | .ok (some i) =>
      let L2 := L.eraseIdx i
      let L3 :=
        match L2.get? i with
        | some q => if isCertbotComment q then L2.eraseIdx i else L2
        | none => L2
      removeGo matchF n L3

/-- `Statements.remove_statements`. -/
def removeStatementsF (matchF : Parsed → Res Bool) (L : List Parsed) : List Parsed × Option RunErr :=
  removeGo matchF (L.length + 1) L

/-- `statement[0]` on the raw statement (also hashed against the repeatable
set, which raises TypeError on an unhashable list element; indexing a string
yields its first character). -/
def stmtHeadCheck (stmt : Raw) : Res String :=
  match stmt with
  | .lst (.tok s :: _) => .ok s
  | .lst (.lst _ :: _) => .error .typeError
  | .lst [] => .error .indexError
  | .tok s => if s.length = 0 then .error .indexError else .ok (s.take 1)

/-- The raw statement as the pattern list `matches_list` receives (indexing a
string pattern yields one-character strings). -/
def stmtPat : Raw → List Raw
  | .lst xs => xs
  | .tok s => s.toList.map fun c => .tok (String.mk [c])

/-- `ServerBloc._add_directive`: skip when the exact statement is already
present; for a non-repeatable, non-block statement whose directive name
already occurs among the (include-expanded) directives raise the conflict
error; otherwise delegate to `add_statement`. -/
def addDirectiveF (n : Nat) (env : Env) (cache : Cache) (L : List Parsed)
    (stmt : Raw) (atTop isBlock : Bool) : Res (List Parsed × Cache) :=
  match containsExactF n cache L (stmtPat stmt) with
  | .error e => .error e
  | .ok true => .ok (L, cache)
  | .ok false =>
    let chk : Res Unit :=
      if isBlock then .ok ()
      else
        match stmtHeadCheck stmt with
        | .error e => .error e
        | .ok h =>
          if h ∈ REPEATABLE_DIRECTIVES then .ok ()
          else
            match getDirectivesF n cache L h with
            | .error e => .error e
            | .ok ds => if ds.length > 0 then .error (.conflict h) else .ok ()
    match chk with
    | .error e => .error e
    | .ok _ =>
      match addStatementF n env cache L stmt atTop with
      | .error e => .error e
      | .ok (L2, _, c2) => .ok (L2, c2)

/-- The statement loop of `ServerBloc.add_directives` followed by the final
`_update_vhost`.  An exception aborts the loop but keeps the mutations made
so far (in-place semantics); the view recomputation mutates nothing. -/
def addDirectivesGo (n : Nat) (env : Env) : Cache → List Parsed → List Raw → Bool →
    (List Parsed × Cache) × Option RunErr
  | cache, L, [], _ =>
    ((L, cache),
      match updateVhostF n env.addrParse cache L with
      | .ok _ => none
      | .error e => some e)
  | cache, L, s :: rest, atTop =>
    match addDirectiveF n env cache L s atTop false with
    | .error e => ((L, cache), some e)
    | .ok (L2, c2) => addDirectivesGo n env c2 L2 rest atTop

/-- `ServerBloc.add_directives` with `is_block = False`. -/
def addDirectivesF (n : Nat) (env : Env) (cache : Cache) (L : List Parsed)
    (stmts : List Raw) (atTop : Bool) : (List Parsed × Cache) × Option RunErr :=
  addDirectivesGo n env cache L stmts atTop

/-- The match function `remove_directives` builds:
`x[0] == directive and (match_func is None or match_func(x))`. -/
def removeMatch (name : String) (matchF : Option (Parsed → Res Bool)) (x : Parsed) : Res Bool :=
  match headWord x with
  | .error e => .error e
  | .ok h =>
    if h = name then
      match matchF with
      | none => .ok true
      | some f => f x
    else .ok false

/-- `ServerBloc.remove_directives` followed by `_update_vhost`. -/
def removeDirectivesF (n : Nat) (ap : String → Option NAddr) (cache : Cache)
    (L : List Parsed) (name : String) (matchF : Option (Parsed → Res Bool)) :
    List Parsed × Option RunErr :=
  match removeStatementsF (removeMatch name matchF) L with
  | (L2, some e) => (L2, some e)
  | (L2, none) =>
    (L2,
      match updateVhostF n ap cache L2 with
      | .ok _ => none
      | .error e => some e)

/-- The nginx dispatch cascade as the specification words it (for comparison
with the hook-table dispatcher): a 2-element list whose first element
contains the word "server" and whose second element is a list becomes a
ServerBloc; an all-string list containing 'include' becomes an Include; then
the defaults: 2-element list with list second element → Bloc, all-string
list → Sentence, any other list → Statements; otherwise dispatch fails. -/
def specNginxChoose (r : Raw) : Res NodeKind :=
  match r with
  | .tok _ => .error .dispatch
  | .lst l =>
    match l with
    | [x, .lst _] =>
      if rawContains x "server" then .ok .serverBloc else .ok .bloc
    | _ =>
      if l.all (fun e => match e with | .tok _ => true | .lst _ => false) then
        if rawContains (.lst l) "include" then .ok .incl else .ok .sentence
      else .ok .statements

/-- The head contribution of one child to `iterate_expanded`: an `Include`
child contributes its resolved documents' expansions followed by itself, any
other child contributes itself (the per-element body of `expandL`). -/
def headOf (n : Nat) (cache : Cache) (q : Parsed) : Res (List Parsed) :=
  match q with
  | .incl _ fs =>
    match expandF n cache fs with
    | .error e => .error e
    | .ok subs => .ok (subs ++ [q])
  | _ => .ok [q]

/-- A statement list entry in the simple form `add_directives` documents
("doesn't expect spaces between elements"): a nonempty flat list of
non-whitespace, quote-free token strings. -/
def cleanStmt (l : List String) : Bool :=
  !l.isEmpty && l.all fun w => !pyIsSpace w && (stripQuotes w == w)

/-- The raw node for a flat statement token list. -/
def mkRawStmt (l : List String) : Raw := .lst (l.map .tok)

/-- One file store extends another: every existing binding is preserved
(parsing only registers new filenames, so the store only grows in this
sense). -/
def cacheExt (c c2 : Cache) : Prop :=
  ∀ f d, cacheLookup c f = some d → cacheLookup c2 f = some d

/-! ### Fixtures used by witnesses and counterexamples -/

/-- A trivial filesystem: no glob matches, every read fails. -/
def fsEmpty : Fs := ⟨fun _ _ => [], fun _ _ => none⟩

/-- An nginx parse environment over the trivial filesystem, with an address
helper that parses nothing. -/
def envNoFs : Env := ⟨NGINX_PARSING_HOOKS, fsEmpty, "", fun _ => none⟩

/-- A filesystem holding one file `inc.conf` with a single sentence `x y`. -/
def fsOne : Fs :=
  ⟨fun _ pat => if pat = "inc.conf" then ["inc.conf"] else [],
   fun _ f => if f = "inc.conf"
              then some (some (.lst [.lst [.tok "x", .tok " ", .tok "y"]]))
              else none⟩

/-- An nginx parse environment over `fsOne`. -/
def envOne : Env := ⟨NGINX_PARSING_HOOKS, fsOne, "", fun _ => none⟩

/-! ### Theorems -/

theorem asStrings_eq : ∀ {l : List Raw} {ws : List String},
    asStrings l = some ws → l = ws.map Raw.tok := by
  intro l
  induction l with
  | nil => intro ws h; simp [asStrings] at h; simp [← h]
  | cons r rest ih =>
    intro ws h
    cases r with
    | tok s =>
      simp only [asStrings, Option.map_eq_some'] at h
      obtain ⟨ws0, h0, rfl⟩ := h
      simp [ih h0]
    | lst _ => simp [asStrings] at h

theorem stripTrailing_spec (l : List Raw) :
    (stripTrailing l).1 ++ (((stripTrailing l).2.map Raw.tok).toList) = l := by
  induction l using List.reverseRecOn with
  | nil => simp [stripTrailing]
  | append_singleton l a _ =>
    cases a with
    | tok s =>
      by_cases hs : pyIsSpace s
      · simp [stripTrailing, hs]
      · simp [stripTrailing, hs]
    | lst xs => simp [stripTrailing]

theorem dump_parse_aux : ∀ n : Nat,
    (∀ env raw cache p c2, parseRawF n env false raw cache = .ok (p, c2) →
      dumpP true p = raw) ∧
    (∀ env raw cache sv p c2, parseBlocF n env false raw cache sv = .ok (p, c2) →
      dumpP true p = raw) ∧
    (∀ env l cache ps c2, parseListF n env false l cache = .ok (ps, c2) →
      dumpL true ps = l) := by
  intro n
  induction n with
  | zero =>
    refine ⟨?_, ?_, ?_⟩ <;> intros <;> simp_all [parseRawF, parseBlocF, parseListF]
  | succ n ih =>
    obtain ⟨ihr, ihb, ihl⟩ := ih
    refine ⟨?_, ?_, ?_⟩
    · intro env raw cache p c2 h
      simp only [parseRawF] at h
      cases hk : chooseParser env.hooks raw with
      | error e => rw [hk] at h; simp at h
      | ok k =>
        rw [hk] at h
        cases k with
        | statements =>
          cases raw with
          | tok s => simp at h
          | lst l =>
            simp only at h
            cases hpl : parseListF n env false (stripTrailing l).1 cache with
            | error e => rw [hpl] at h; simp at h
            | ok pc =>
              obtain ⟨ps, c3⟩ := pc
              rw [hpl] at h
              simp only [Except.ok.injEq, Prod.mk.injEq] at h
              obtain ⟨rfl, rfl⟩ := h
              have hd := ihl env (stripTrailing l).1 cache ps c3 hpl
              simp [dumpP, hd, stripTrailing_spec l]
        | sentence =>
          cases raw with
          | tok s => simp at h
          | lst l =>
            simp only at h
            cases hws : asStrings l with
            | none => rw [hws] at h; simp at h
            | some ws =>
              rw [hws] at h
              simp only [Bool.false_eq_true, if_false, Except.ok.injEq, Prod.mk.injEq] at h
              obtain ⟨rfl, rfl⟩ := h
              simp [dumpP, asStrings_eq hws]
        | incl =>
          cases raw with
          | tok s => simp at h
          | lst l =>
            simp only at h
            cases hws : asStrings l with
            | none => rw [hws] at h; simp at h
            | some ws =>
              rw [hws] at h
              simp only [Bool.false_eq_true, if_false] at h
              cases hpat : (wordsOf ws).get? 1 with
              | none => rw [hpat] at h; simp at h
              | some pat =>
                rw [hpat] at h
                simp only at h
                cases hc : parseFilesF n env (env.fs.glob env.cwd pat) cache with
                | error e => rw [hc] at h; simp at h
                | ok c3 =>
                  rw [hc] at h
                  simp only [Except.ok.injEq, Prod.mk.injEq] at h
                  obtain ⟨rfl, rfl⟩ := h
                  simp [dumpP, asStrings_eq hws]
        | bloc => exact ihb env raw cache false p c2 h
        | serverBloc => exact ihb env raw cache true p c2 h
    · intro env raw cache sv p c2 h
      simp only [parseBlocF] at h
      cases raw with
      | tok s => simp at h
      | lst l =>
        match l with
        | [] => simp at h
        | [a] => simp at h
        | a :: b :: c :: rest => simp at h
        | [a, b] =>
          cases a with
          | tok s => simp at h
          | lst la =>
            simp only at h
            cases hns : asStrings la with
            | none => rw [hns] at h; simp at h
            | some ns0 =>
              rw [hns] at h
              cases b with
              | tok s => simp at h
              | lst lb =>
                simp only [Bool.false_eq_true, if_false] at h
                cases hpl : parseListF n env false (stripTrailing lb).1 cache with
                | error e => rw [hpl] at h; simp at h
                | ok pc =>
                  obtain ⟨cs, c3⟩ := pc
                  rw [hpl] at h
                  have hd := ihl env (stripTrailing lb).1 cache cs c3 hpl
                  cases sv with
                  | false =>
                    simp only [Bool.false_eq_true, if_false, Except.ok.injEq,
                      Prod.mk.injEq] at h
                    obtain ⟨rfl, rfl⟩ := h
                    simp [dumpP, hd, stripTrailing_spec lb, asStrings_eq hns]
                  | true =>
                    simp only [if_true] at h
                    cases hv : updateVhostF n env.addrParse c3 cs with
                    | error e => rw [hv] at h; simp at h
                    | ok v =>
                      rw [hv] at h
                      simp only [Except.ok.injEq, Prod.mk.injEq] at h
                      obtain ⟨rfl, rfl⟩ := h
                      simp [dumpP, hd, stripTrailing_spec lb, asStrings_eq hns]
    · intro env l cache ps c2 h
      cases l with
      | nil =>
        simp only [parseListF, Except.ok.injEq, Prod.mk.injEq] at h
        obtain ⟨rfl, rfl⟩ := h
        simp [dumpL]
      | cons r rest =>
        simp only [parseListF] at h
        cases hp : parseRawF n env false r cache with
        | error e => rw [hp] at h; simp at h
        | ok pc =>
          obtain ⟨p1, c3⟩ := pc
          rw [hp] at h
          simp only at h
          cases hq : parseListF n env false rest c3 with
          | error e => rw [hq] at h; simp at h
          | ok qc =>
            obtain ⟨ps1, c4⟩ := qc
            rw [hq] at h
            simp only [Except.ok.injEq, Prod.mk.injEq] at h
            obtain ⟨rfl, rfl⟩ := h
            have h1 := ihr env r cache p1 c3 hp
            have h2 := ihl env rest c3 ps1 c4 hq
            simp [dumpL, h1, h2]

/-- C1: a document parsed from a raw token tree serializes with
`include_spaces = true` back to exactly that raw tree; re-parsing that dump
under the same hook table (the same environment and store) therefore
reproduces the same document, and in particular the structural
(non-whitespace) dump of the re-parse equals the structural dump of the
original document. -/
theorem C1_roundtrip (n : Nat) (env : Env) (raw : Raw) (cache : Cache)
    (p : Parsed) (c2 : Cache)
    (h : parseRawF n env false raw cache = .ok (p, c2)) :
    dumpP true p = raw ∧
    parseRawF n env false (dumpP true p) cache = .ok (p, c2) ∧
    ∀ p2 c3, parseRawF n env false (dumpP true p) cache = .ok (p2, c3) →
      dumpP false p2 = dumpP false p := by
  have hd := (dump_parse_aux n).1 env raw cache p c2 h
  refine ⟨hd, by rw [hd]; exact h, ?_⟩
  intro p2 c3 h2
  rw [hd, h] at h2
  simp only [Except.ok.injEq, Prod.mk.injEq] at h2
  rw [h2.1]

/-- C1 witness: a concrete two-statement document (a sentence with interior
whitespace plus a trailing whitespace token) round-trips. -/
theorem C1_roundtrip_witness :
    dumpP true (Parsed.stmts [Parsed.sentence ["a", " ", "b"]] (some "\n")) =
      Raw.lst [.lst [.tok "a", .tok " ", .tok "b"], .tok "\n"] ∧
    parseRawF 5 envNoFs false
        (dumpP true (Parsed.stmts [Parsed.sentence ["a", " ", "b"]] (some "\n"))) [] =
      .ok (Parsed.stmts [Parsed.sentence ["a", " ", "b"]] (some "\n"), []) := by
  have h := C1_roundtrip 5 envNoFs
      (Raw.lst [.lst [.tok "a", .tok " ", .tok "b"], .tok "\n"]) []
      (Parsed.stmts [Parsed.sentence ["a", " ", "b"]] (some "\n")) [] rfl
  exact ⟨h.1, h.2.1⟩

/-- C8: hook dispatch tries the (predicate, kind) pairs in registration order
and returns the first kind whose predicate matches, failing with the dispatch
error when none matches; and under the nginx hook table the result is
exactly the specification's cascade (`specNginxChoose`). -/
theorem C8_dispatch :
    (∀ (hooks1 hooks2 : Hooks) (pred : Raw → Bool) (k : NodeKind) (r : Raw),
        (∀ h ∈ hooks1, h.1 r = false) → pred r = true →
        chooseParser (hooks1 ++ (pred, k) :: hooks2) r = .ok k) ∧
    (∀ (hooks : Hooks) (r : Raw), (∀ h ∈ hooks, h.1 r = false) →
        chooseParser hooks r = .error .dispatch) ∧
    (∀ r : Raw, chooseParser NGINX_PARSING_HOOKS r = specNginxChoose r) := by
  refine ⟨?_, ?_, ?_⟩
  · intro hooks1 hooks2 pred k r hall hp
    induction hooks1 with
    | nil => simp [chooseParser, hp]
    | cons hd tl ih =>
      have h0 : hd.1 r = false := hall hd (by simp)
      simp only [List.cons_append, chooseParser, h0]
      exact ih fun h hm => hall h (by simp [hm])
  · intro hooks r hall
    induction hooks with
    | nil => rfl
    | cons hd tl ih =>
      have h0 : hd.1 r = false := hall hd (by simp)
      simp only [chooseParser, h0]
      exact ih fun h hm => hall h (by simp [hm])
  · intro r
    cases r with
    | tok s => rfl
    | lst l =>
      match l with
      | [] => rfl
      | [x] =>
        cases x with
        | tok s =>
          simp only [NGINX_PARSING_HOOKS, DEFAULT_PARSING_HOOKS, chooseParser,
            specNginxChoose, isBlocRaw, isSentenceRaw, isListRaw, List.cons_append,
            List.nil_append, List.all_cons, List.all_nil, Bool.false_and, Bool.and_true,
            Bool.true_and, if_false]
          cases hinc : rawContains (.lst [Raw.tok s]) "include" <;> simp [hinc]
        | lst ys => rfl
      | [x, y] =>
        cases y with
        | tok t =>
          cases x with
          | tok s =>
            simp only [NGINX_PARSING_HOOKS, DEFAULT_PARSING_HOOKS, chooseParser,
              specNginxChoose, isBlocRaw, isSentenceRaw, isListRaw, List.cons_append,
              List.nil_append, List.all_cons, List.all_nil, Bool.false_and,
              Bool.and_true, Bool.true_and, if_false]
            cases hinc : rawContains (.lst [Raw.tok s, Raw.tok t]) "include" <;>
              simp [hinc]
          | lst ys => rfl
        | lst ys =>
          simp only [NGINX_PARSING_HOOKS, DEFAULT_PARSING_HOOKS, chooseParser,
            specNginxChoose, isBlocRaw, isSentenceRaw, isListRaw, List.cons_append,
            List.nil_append, Bool.true_and]
          cases hsv : rawContains x "server" <;> simp [hsv]
      | x :: y :: z :: rest =>
        simp only [NGINX_PARSING_HOOKS, DEFAULT_PARSING_HOOKS, chooseParser,
          specNginxChoose, isBlocRaw, isSentenceRaw, isListRaw, List.cons_append,
          List.nil_append, Bool.false_and, if_false]
        cases hst : (x :: y :: z :: rest).all
            (fun e => match e with | Raw.tok _ => true | Raw.lst _ => false) with
        | false => simp [hst]
        | true =>
          simp only [hst, Bool.true_and, if_true]
          cases hinc : rawContains (.lst (x :: y :: z :: rest)) "include" <;> simp [hinc]

/-- C8 witness: the first-match rule, the no-match dispatch failure, and the
nginx cascade at a concrete server block raw node. -/
theorem C8_dispatch_witness :
    chooseParser ([((fun _ => false), NodeKind.bloc)] ++
        ((fun _ => true), NodeKind.sentence) :: []) (.tok "x") = .ok .sentence ∧
    chooseParser [] (.tok "x") = .error .dispatch ∧
    chooseParser NGINX_PARSING_HOOKS (.lst [.tok "server", .lst []]) =
      specNginxChoose (.lst [.tok "server", .lst []]) :=
  ⟨C8_dispatch.1 [((fun _ => false), NodeKind.bloc)] [] (fun _ => true)
      NodeKind.sentence (.tok "x") (by simp) rfl,
   C8_dispatch.2.1 [] (.tok "x") (by simp),
   C8_dispatch.2.2 (.lst [.tok "server", .lst []])⟩

/-- C7 counterexample: a comment sentence with an extra word besides the two
marker tokens is still recognized as a managed marker (`is_certbot_comment`
tests membership, not structural equality), although its word sequence is not
the two-token marker. -/
theorem C7_marker_counterexample :
    isCertbotComment (Parsed.sentence ["#", " managed by Certbot", "extra"]) = true ∧
    wordsOf ["#", " managed by Certbot", "extra"] ≠ COMMENT_BLOCK := by
  exact ⟨rfl, by decide⟩

/-- C7 (amended): a node is recognized as the managed-comment marker exactly
when it is a `Sentence` instance whose words contain both marker tokens
(`'#'` and the sentinel text) — membership, not structural equality, so
comments with extra words are recognized as well. -/
theorem C7_marker_amended (p : Parsed) :
    isCertbotComment p = true ↔
      sentInst p = true ∧ "#" ∈ wordsOfP p ∧ COMMENT ∈ wordsOfP p := by
  simp [isCertbotComment, COMMENT_BLOCK, and_assoc]

theorem matchesGo_true_iff (pat : List Raw) :
    ∀ (ws : List String) (i : Nat),
    matchesGo pat i ws = .ok true ↔
      ((∀ j w, ws.get? j = some w → pat.get? (i + j) = some (.tok w)) ∨
       (∃ k, ws.get? k = some "#" ∧ i + k = pat.length ∧
         ∀ j w, j < k → ws.get? j = some w → pat.get? (i + j) = some (.tok w))) := by
  intro ws
  induction ws with
  | nil =>
    intro i
    simp only [matchesGo, List.get?_nil]
    constructor
    · intro _; left; intro j w hj; simp at hj
    · intro _; trivial
  | cons w rest ih =>
    intro i
    by_cases h1 : w = "#" ∧ i = pat.length
    · simp only [matchesGo, if_pos h1]
      constructor
      · intro _
        right
        refine ⟨0, by simp [h1.1], by simpa using h1.2, ?_⟩
        intro j u hj; omega
      · intro _; trivial
    · simp only [matchesGo, if_neg h1]
      cases hp : pat.get? i with
      | none =>
        have hlen : pat.length ≤ i := by
          by_contra hc
          push_neg at hc
          obtain ⟨a, ha⟩ : ∃ a, pat.get? i = some a :=
            ⟨pat.get ⟨i, hc⟩, List.get?_eq_get hc⟩
          rw [hp] at ha
          exact absurd ha (by simp)
        constructor
        · intro hcontra; simp at hcontra
        · intro hr
          exfalso
          rcases hr with hA | ⟨k, hk, hik, hbef⟩
          · have h0 := hA 0 w (by simp)
            rw [Nat.add_zero] at h0
            rw [hp] at h0
            exact absurd h0 (by simp)
          · cases k with
            | zero =>
              simp only [List.get?_cons_zero, Option.some.injEq] at hk
              exact h1 ⟨hk.symm ▸ rfl, by omega⟩
            | succ k2 =>
              have h0 := hbef 0 w (by omega) (by simp)
              rw [Nat.add_zero] at h0
              rw [hp] at h0
              exact absurd h0 (by simp)
      | some r =>
        have hlt : i < pat.length := (List.get?_eq_some.mp hp).1
        cases r with
        | lst xs =>
          simp only [hp]
          constructor
          · intro hcontra; simp at hcontra
          · intro hr
            exfalso
            rcases hr with hA | ⟨k, hk, hik, hbef⟩
            · have h0 := hA 0 w (by simp)
              rw [Nat.add_zero, hp] at h0
              exact absurd h0 (by simp)
            · cases k with
              | zero => omega
              | succ k2 =>
                have h0 := hbef 0 w (by omega) (by simp)
                rw [Nat.add_zero, hp] at h0
                exact absurd h0 (by simp)
        | tok t =>
          simp only [hp]
          by_cases ht : w = t
          · simp only [if_pos ht]
            rw [ih (i + 1)]
            constructor
            · intro hr
              rcases hr with hA | ⟨k, hk, hik, hbef⟩
              · left
                intro j u hj
                cases j with
                | zero =>
                  simp only [List.get?_cons_zero, Option.some.injEq] at hj
                  rw [Nat.add_zero, hp, ← hj, ht]
                | succ j2 =>
                  have hj2 : rest.get? j2 = some u := by simpa using hj
                  have := hA j2 u hj2
                  have harr : i + (j2 + 1) = i + 1 + j2 := by omega
                  rw [harr]
                  exact this
              · right
                refine ⟨k + 1, by simpa using hk, by omega, ?_⟩
                intro j u hj hju
                cases j with
                | zero =>
                  simp only [List.get?_cons_zero, Option.some.injEq] at hju
                  rw [Nat.add_zero, hp, ← hju, ht]
                | succ j2 =>
                  have hj2 : rest.get? j2 = some u := by simpa using hju
                  have := hbef j2 u (by omega) hj2
                  have harr : i + (j2 + 1) = i + 1 + j2 := by omega
                  rw [harr]
                  exact this
            · intro hr
              rcases hr with hA | ⟨k, hk, hik, hbef⟩
              · left
                intro j u hj
                have := hA (j + 1) u (by simpa using hj)
                have harr : i + 1 + j = i + (j + 1) := by omega
                rw [harr]
                exact this
              · cases k with
                | zero =>
                  exfalso
                  simp only [List.get?_cons_zero, Option.some.injEq] at hk
                  omega
                | succ k2 =>
                  right
                  refine ⟨k2, by simpa using hk, by omega, ?_⟩
                  intro j u hj hju
                  have := hbef (j + 1) u (by omega) (by simpa using hju)
                  have harr : i + 1 + j = i + (j + 1) := by omega
                  rw [harr]
                  exact this
          · simp only [if_neg ht]
            constructor
            · intro hcontra; simp at hcontra
            · intro hr
              exfalso
              rcases hr with hA | ⟨k, hk, hik, hbef⟩
              · have h0 := hA 0 w (by simp)
                rw [Nat.add_zero, hp] at h0
                simp only [Option.some.injEq, Raw.tok.injEq] at h0
                exact ht h0.symm
              · cases k with
                | zero => omega
                | succ k2 =>
                  have h0 := hbef 0 w (by omega) (by simp)
                  rw [Nat.add_zero, hp] at h0
                  simp only [Option.some.injEq, Raw.tok.injEq] at h0
                  exact ht h0.symm

theorem matchesGo_indexError_iff (pat : List Raw) :
    ∀ (ws : List String) (i : Nat),
    matchesGo pat i ws = .error .indexError ↔
      ∃ k w, ws.get? k = some w ∧ pat.length ≤ i + k ∧ ¬(w = "#" ∧ i + k = pat.length) ∧
        ∀ j u, j < k → ws.get? j = some u → pat.get? (i + j) = some (.tok u) := by
  intro ws
  induction ws with
  | nil =>
    intro i
    simp only [matchesGo, List.get?_nil]
    constructor
    · intro hcontra; simp at hcontra
    · rintro ⟨k, w, hk, _⟩; simp at hk
  | cons w rest ih =>
    intro i
    by_cases h1 : w = "#" ∧ i = pat.length
    · simp only [matchesGo, if_pos h1]
      constructor
      · intro hcontra; simp at hcontra
      · rintro ⟨k, u, hk, hge, hne, hbef⟩
        exfalso
        cases k with
        | zero =>
          simp only [List.get?_cons_zero, Option.some.injEq] at hk
          exact hne ⟨hk ▸ h1.1, by omega⟩
        | succ k2 =>
          have h0 := hbef 0 w (by omega) (by simp)
          rw [Nat.add_zero] at h0
          have : i < pat.length := (List.get?_eq_some.mp h0).1
          omega
    · simp only [matchesGo, if_neg h1]
      cases hp : pat.get? i with
      | none =>
        have hlen : pat.length ≤ i := by
          by_contra hc
          push_neg at hc
          obtain ⟨a, ha⟩ : ∃ a, pat.get? i = some a :=
            ⟨pat.get ⟨i, hc⟩, List.get?_eq_get hc⟩
          rw [hp] at ha
          exact absurd ha (by simp)
        constructor
        · intro _
          refine ⟨0, w, by simp, by omega, ?_, ?_⟩
          · intro hcon
            exact h1 ⟨hcon.1, by omega⟩
          · intro j u hj; omega
        · intro _; rfl
      | some r =>
        have hlt : i < pat.length := (List.get?_eq_some.mp hp).1
        have hshift : ∀ k,
            ((w :: rest).get? (k+1) = rest.get? k) := by intro k; rfl
        cases r with
        | lst xs =>
          simp only [hp]
          constructor
          · intro hcontra; simp at hcontra
          · rintro ⟨k, u, hk, hge, hne, hbef⟩
            exfalso
            cases k with
            | zero => omega
            | succ k2 =>
              have h0 := hbef 0 w (by omega) (by simp)
              rw [Nat.add_zero, hp] at h0
              exact absurd h0 (by simp)
        | tok t =>
          simp only [hp]
          by_cases ht : w = t
          · simp only [if_pos ht]
            rw [ih (i + 1)]
            constructor
            · rintro ⟨k, u, hk, hge, hne, hbef⟩
              refine ⟨k + 1, u, by simpa using hk, by omega,
                by rw [show i + (k + 1) = i + 1 + k from by omega]; exact hne, ?_⟩
              intro j v hj hjv
              cases j with
              | zero =>
                simp only [List.get?_cons_zero, Option.some.injEq] at hjv
                rw [Nat.add_zero, hp, ← hjv, ht]
              | succ j2 =>
                have := hbef j2 v (by omega) (by simpa using hjv)
                have harr : i + (j2 + 1) = i + 1 + j2 := by omega
                rw [harr]
                exact this
            · rintro ⟨k, u, hk, hge, hne, hbef⟩
              cases k with
              | zero => omega
              | succ k2 =>
                refine ⟨k2, u, by simpa using hk, by omega,
                  by rw [show i + 1 + k2 = i + (k2 + 1) from by omega]; exact hne, ?_⟩
                intro j v hj hjv
                have := hbef (j + 1) v (by omega) (by simpa using hjv)
                have harr : i + 1 + j = i + (j + 1) := by omega
                rw [harr]
                exact this
          · simp only [if_neg ht]
            constructor
            · intro hcontra; simp at hcontra
            · rintro ⟨k, u, hk, hge, hne, hbef⟩
              exfalso
              cases k with
              | zero => omega
              | succ k2 =>
                have h0 := hbef 0 w (by omega) (by simp)
                rw [Nat.add_zero, hp] at h0
                simp only [Option.some.injEq, Raw.tok.injEq] at h0
                exact ht h0.symm

theorem scanContains_true_iff (pat : List Raw) :
    ∀ ex : List Parsed, scanContains pat ex = .ok true ↔
      ∃ i p, ex.get? i = some p ∧ sentInst p = true ∧
        matchesWords (wordsOfP p) pat = .ok true ∧
        ∀ j q, j < i → ex.get? j = some q → sentInst q = true →
          matchesWords (wordsOfP q) pat = .ok false := by
  intro ex
  induction ex with
  | nil => simp [scanContains]
  | cons p rest ih =>
    cases hs : sentInst p with
    | false =>
      simp only [scanContains, hs, Bool.false_eq_true, if_false]
      rw [ih]
      constructor
      · rintro ⟨i, q, hq, hqs, hqt, hbef⟩
        refine ⟨i + 1, q, by simpa using hq, hqs, hqt, ?_⟩
        intro j u hj hju hus
        cases j with
        | zero =>
          simp only [List.get?_cons_zero, Option.some.injEq] at hju
          rw [← hju] at hus
          rw [hus] at hs
          simp at hs
        | succ j2 => exact hbef j2 u (by omega) (by simpa using hju) hus
      · rintro ⟨i, q, hq, hqs, hqt, hbef⟩
        cases i with
        | zero =>
          simp only [List.get?_cons_zero, Option.some.injEq] at hq
          rw [← hq] at hqs
          rw [hqs] at hs
          simp at hs
        | succ i2 =>
          refine ⟨i2, q, by simpa using hq, hqs, hqt, ?_⟩
          intro j u hj hju hus
          exact hbef (j + 1) u (by omega) (by simpa using hju) hus
    | true =>
      simp only [scanContains, hs, if_true]
      cases hm : matchesWords (wordsOfP p) pat with
      | error e =>
        constructor
        · intro hcontra; simp at hcontra
        · rintro ⟨i, q, hq, hqs, hqt, hbef⟩
          exfalso
          cases i with
          | zero =>
            simp only [List.get?_cons_zero, Option.some.injEq] at hq
            rw [← hq, hm] at hqt
            simp at hqt
          | succ i2 =>
            have h0 := hbef 0 p (by omega) (by simp) hs
            rw [hm] at h0
            simp at h0
      | ok b =>
        cases b with
        | true =>
          constructor
          · intro _
            exact ⟨0, p, by simp, hs, hm, by intro j q hj; omega⟩
          · intro _; rfl
        | false =>
          rw [ih]
          constructor
          · rintro ⟨i, q, hq, hqs, hqt, hbef⟩
            refine ⟨i + 1, q, by simpa using hq, hqs, hqt, ?_⟩
            intro j u hj hju hus
            cases j with
            | zero =>
              simp only [List.get?_cons_zero, Option.some.injEq] at hju
              rw [← hju, hm]
            | succ j2 => exact hbef j2 u (by omega) (by simpa using hju) hus
          · rintro ⟨i, q, hq, hqs, hqt, hbef⟩
            cases i with
            | zero =>
              simp only [List.get?_cons_zero, Option.some.injEq] at hq
              rw [← hq, hm] at hqt
              simp at hqt
            | succ i2 =>
              refine ⟨i2, q, by simpa using hq, hqs, hqt, ?_⟩
              intro j u hj hju hus
              exact hbef (j + 1) u (by omega) (by simpa using hju) hus

/-- C5 counterexample: `contains_exact` over a container whose single
sentence has words `["a"]` reports the statement `['a','b']` as present —
although the sentence's words neither equal the pattern nor equal the pattern
followed by a `'#'` terminator (a strict prefix matches in the source). -/
theorem C5_contains_exact_counterexample :
    containsExactF 5 [] [Parsed.sentence ["a"]] [.tok "a", .tok "b"] = .ok true ∧
    wordsOf ["a"] ≠ ["a", "b"] ∧ wordsOf ["a"] ≠ ["a", "b", "#"] :=
  ⟨rfl, by decide, by decide⟩

/-- C5 (amended): `matches_list` succeeds exactly when the sentence's words,
compared position by position against the pattern, are a (not necessarily
strict) prefix of the pattern, or agree with the whole pattern and carry
`'#'` at the position just past it; a sentence extending a fully matched
pattern without `'#'` there raises IndexError instead of not matching; and
`contains_exact` returns true exactly when the expanded sequence has a first
sentence whose words match in that sense, with every earlier expanded
sentence returning a definite non-match. -/
theorem C5_contains_exact_amended :
    (∀ (ws : List String) (pat : List Raw),
      matchesWords ws pat = .ok true ↔
        ((∀ j w, ws.get? j = some w → pat.get? j = some (.tok w)) ∨
         (∃ k, ws.get? k = some "#" ∧ k = pat.length ∧
            ∀ j w, j < k → ws.get? j = some w → pat.get? j = some (.tok w)))) ∧
    (∀ (ws : List String) (pat : List Raw),
      matchesWords ws pat = .error .indexError ↔
        ∃ k w, ws.get? k = some w ∧ pat.length ≤ k ∧ ¬(w = "#" ∧ k = pat.length) ∧
          ∀ j u, j < k → ws.get? j = some u → pat.get? j = some (.tok u)) ∧
    (∀ (n : Nat) (cache : Cache) (L : List Parsed) (pat : List Raw) (ex : List Parsed),
      expandL n cache L = .ok ex →
      (containsExactF n cache L pat = .ok true ↔
        ∃ i p, ex.get? i = some p ∧ sentInst p = true ∧
          matchesWords (wordsOfP p) pat = .ok true ∧
          ∀ j q, j < i → ex.get? j = some q → sentInst q = true →
            matchesWords (wordsOfP q) pat = .ok false)) := by
  refine ⟨?_, ?_, ?_⟩
  · intro ws pat
    simpa using matchesGo_true_iff pat ws 0
  · intro ws pat
    simpa using matchesGo_indexError_iff pat ws 0
  · intro n cache L pat ex hex
    unfold containsExactF
    rw [hex]
    exact scanContains_true_iff pat ex

/-- C5 witness: an exact match is reported present through the amended
characterization at a concrete container. -/
theorem C5_contains_exact_witness :
    containsExactF 5 [] [Parsed.sentence ["foo", " ", "bar"]]
      [.tok "foo", .tok "bar"] = .ok true := by
  have h := C5_contains_exact_amended.2.2 5 [] [Parsed.sentence ["foo", " ", "bar"]]
      [.tok "foo", .tok "bar"] [Parsed.sentence ["foo", " ", "bar"]] rfl
  refine h.mpr ⟨0, Parsed.sentence ["foo", " ", "bar"], rfl, rfl, rfl, ?_⟩
  intro j q hj
  omega

theorem pyIsSpace_iff (s : String) :
    pyIsSpace s = true ↔
      s.toList ≠ [] ∧ ∀ c ∈ s.toList, c ∈ [' ', '\t', '\n', '\r', '\x0b', '\x0c'] := by
  unfold pyIsSpace
  rw [Bool.and_eq_true, List.all_eq_true]
  constructor
  · rintro ⟨h1, h2⟩
    refine ⟨?_, fun c hc => by simpa using h2 c hc⟩
    intro hc
    apply (by simpa using h1 : s ≠ "")
    apply String.ext
    simpa [String.toList] using hc
  · rintro ⟨h1, h2⟩
    refine ⟨?_, fun c hc => by simpa using h2 c hc⟩
    simp only [ne_eq, decide_eq_true_eq]
    intro hc
    rw [hc] at h1
    simp [String.toList] at h1

theorem mem_of_mem_takeWhileX {α : Type} {x : α} {p : α → Bool} :
    ∀ {l : List α}, x ∈ l.takeWhile p → x ∈ l := by
  intro l
  induction l with
  | nil => intro h; simp at h
  | cons c cs ih =>
    intro h
    by_cases hc : p c
    · rw [List.takeWhile_cons_of_pos hc] at h
      rcases List.mem_cons.mp h with rfl | h2
      · simp
      · exact List.mem_cons_of_mem _ (ih h2)
    · rw [List.takeWhile_cons_of_neg hc] at h
      simp at h

theorem pyIsSpace_mk_or (cs : List Char)
    (h : ∀ c ∈ cs, c ∈ [' ', '\t', '\n', '\r', '\x0b', '\x0c']) :
    String.mk cs = "" ∨ pyIsSpace (String.mk cs) = true := by
  cases cs with
  | nil => left; rfl
  | cons c cs2 =>
    right
    rw [pyIsSpace_iff]
    exact ⟨by simp [String.toList], by simpa [String.toList] using h⟩

theorem spacesAfterNewline_white (w : String) :
    spacesAfterNewline w = "" ∨ pyIsSpace (spacesAfterNewline w) = true := by
  unfold spacesAfterNewline
  by_cases hw : pyIsSpace w
  · rw [if_neg (by simp [hw])]
    apply pyIsSpace_mk_or
    intro x hx
    rw [List.mem_reverse] at hx
    have hx2 : x ∈ w.toList :=
      List.mem_reverse.mp (mem_of_mem_takeWhileX hx)
    exact ((pyIsSpace_iff w).mp hw).2 x hx2
  · simp [hw]

theorem getTabs_white : ∀ (N : Nat) (p : Parsed), sizeOf p ≤ N →
    ∀ tabs, getTabsP p = .ok tabs → tabs = "" ∨ pyIsSpace tabs = true := by
  intro N
  induction N with
  | zero => intro p hp; cases p <;> simp at hp
  | succ N ih =>
    intro p hp tabs h
    cases p with
    | sentence d =>
      rw [getTabsP] at h
      cases hd : d.head? with
      | none => rw [hd] at h; simp at h
      | some w =>
        rw [hd] at h
        simp only [Except.ok.injEq] at h
        rw [← h]
        exact spacesAfterNewline_white w
    | incl d fs =>
      rw [getTabsP] at h
      cases hd : d.head? with
      | none => rw [hd] at h; simp at h
      | some w =>
        rw [hd] at h
        simp only [Except.ok.injEq] at h
        rw [← h]
        exact spacesAfterNewline_white w
    | bloc sv ns cs ct =>
      rw [getTabsP] at h
      cases hd : ns.head? with
      | none => rw [hd] at h; simp at h
      | some w =>
        rw [hd] at h
        simp only [Except.ok.injEq] at h
        rw [← h]
        exact spacesAfterNewline_white w
    | stmts ds st =>
      rw [getTabsP] at h
      cases ds with
      | nil =>
        rw [getTabsL] at h
        simp only [Except.ok.injEq] at h
        left; exact h.symm
      | cons q rest =>
        rw [getTabsL] at h
        have hq : sizeOf q ≤ N := by
          have : sizeOf q < sizeOf (Parsed.stmts (q :: rest) st) := by
            simp
            omega
          omega
        exact ih q hq tabs h

theorem getTabsL_white (L : List Parsed) (tabs : String) (h : getTabsL L = .ok tabs) :
    tabs = "" ∨ pyIsSpace tabs = true := by
  cases L with
  | nil =>
    rw [getTabsL] at h
    simp only [Except.ok.injEq] at h
    left; exact h.symm
  | cons p rest =>
    rw [getTabsL] at h
    exact getTabs_white (sizeOf p) p le_rfl tabs h

theorem newlineTabs_space (tabs : String) (h : tabs = "" ∨ pyIsSpace tabs = true) :
    pyIsSpace ("\n" ++ tabs) = true := by
  rw [pyIsSpace_iff]
  have hdata : ("\n" ++ tabs).toList = '\n' :: tabs.toList := by
    simp [String.toList, String.data_append]
  rw [hdata]
  rcases h with rfl | hsp
  · simp
  · refine ⟨by simp, ?_⟩
    intro c hc
    rcases List.mem_cons.mp hc with rfl | hc2
    · simp
    · exact ((pyIsSpace_iff tabs).mp hsp).2 c hc2

theorem wordsOf_cons_space (w : String) (hw : pyIsSpace w = true) (rest : List String) :
    wordsOf (w :: rest) = wordsOf rest := by
  simp [wordsOf, hw]

theorem headWord_ok {p : Parsed} {w : String} (h : headWord p = .ok w) :
    (wordsOfP p).head? = some w := by
  unfold headWord at h
  cases hh : (wordsOfP p).head? with
  | none => rw [hh] at h; simp at h
  | some u => rw [hh] at h; simp only [Except.ok.injEq] at h; rw [h]

theorem filterDirectives_nil_all {name : String} : ∀ {ex : List Parsed},
    filterDirectives name ex = .ok [] →
    ∀ p ∈ ex, sentInst p = true → ∃ w, (wordsOfP p).head? = some w ∧ w ≠ name := by
  intro ex
  induction ex with
  | nil => intro _ p hp; simp at hp
  | cons q rest ih =>
    intro h p hp hps
    cases hq : sentInst q with
    | false =>
      rw [filterDirectives, if_neg (by simp [hq])] at h
      rcases List.mem_cons.mp hp with rfl | hp2
      · rw [hq] at hps; simp at hps
      · exact ih h p hp2 hps
    | true =>
      rw [filterDirectives, if_pos (by simp [hq])] at h
      cases hw : headWord q with
      | error e => rw [hw] at h; simp at h
      | ok w =>
        rw [hw] at h
        cases htail : filterDirectives name rest with
        | error e => rw [htail] at h; simp at h
        | ok tail =>
          rw [htail] at h
          simp only [Except.ok.injEq] at h
          have hwne : w ≠ name := by
            intro hcon
            rw [if_pos hcon] at h
            simp at h
          have htl : tail = [] := by
            rwa [if_neg hwne] at h
          rcases List.mem_cons.mp hp with rfl | hp2
          · exact ⟨w, headWord_ok hw, hwne⟩
          · exact ih (htl ▸ htail) p hp2 hps

theorem expandL_cons_ok : ∀ {n : Nat} {cache : Cache} {q : Parsed} {rest ex : List Parsed},
    expandL (n + 1) cache (q :: rest) = .ok ex →
    ∃ head tail, expandL n cache rest = .ok tail ∧ ex = head ++ tail ∧ q ∈ head := by
  intro n cache q rest ex h
  cases q with
  | incl d fs =>
    rw [expandL] at h
    cases hf : expandF n cache fs with
    | error e => rw [hf] at h; simp [bind, Except.bind, pure, Except.pure] at h
    | ok subs =>
      rw [hf] at h
      cases ht : expandL n cache rest with
      | error e => rw [ht] at h; simp [bind, Except.bind, pure, Except.pure] at h
      | ok tail =>
        rw [ht] at h
        simp only [bind, Except.bind, pure, Except.pure, Except.ok.injEq] at h
        exact ⟨subs ++ [.incl d fs], tail, rfl, h.symm, by simp⟩
  | sentence d =>
    rw [expandL] at h
    case x_4 => intro data files hcon; cases hcon
    cases ht : expandL n cache rest with
    | error e => rw [ht] at h; simp [bind, Except.bind, pure, Except.pure] at h
    | ok tail =>
      rw [ht] at h
      simp only [bind, Except.bind, pure, Except.pure, Except.ok.injEq] at h
      exact ⟨[.sentence d], tail, rfl, h.symm, by simp⟩
  | bloc sv ns cs ct =>
    rw [expandL] at h
    case x_4 => intro data files hcon; cases hcon
    cases ht : expandL n cache rest with
    | error e => rw [ht] at h; simp [bind, Except.bind, pure, Except.pure] at h
    | ok tail =>
      rw [ht] at h
      simp only [bind, Except.bind, pure, Except.pure, Except.ok.injEq] at h
      exact ⟨[.bloc sv ns cs ct], tail, rfl, h.symm, by simp⟩
  | stmts ds st =>
    rw [expandL] at h
    case x_4 => intro data files hcon; cases hcon
    cases ht : expandL n cache rest with
    | error e => rw [ht] at h; simp [bind, Except.bind, pure, Except.pure] at h
    | ok tail =>
      rw [ht] at h
      simp only [bind, Except.bind, pure, Except.pure, Except.ok.injEq] at h
      exact ⟨[.stmts ds st], tail, rfl, h.symm, by simp⟩

theorem expandL_mem : ∀ (n : Nat) (cache : Cache) (L ex : List Parsed),
    expandL n cache L = .ok ex → ∀ p ∈ L, p ∈ ex := by
  intro n
  induction n with
  | zero => intro cache L ex h; rw [expandL] at h; simp at h
  | succ n ih =>
    intro cache L ex h p hp
    cases L with
    | nil => simp at hp
    | cons q rest =>
      obtain ⟨head, tail, ht, rfl, hqh⟩ := expandL_cons_ok h
      rcases List.mem_cons.mp hp with rfl | hp2
      · exact List.mem_append.mpr (Or.inl hqh)
      · exact List.mem_append.mpr (Or.inr (ih cache rest tail ht p hp2))

theorem getStatementIndex_append_skip (f : Parsed → Res Bool) :
    ∀ (L rest : List Parsed),
    (∀ p ∈ L, sentInst p = true → f p = .ok false) →
    getStatementIndexF f (L ++ rest) =
      (match getStatementIndexF f rest with
       | .error e => .error e
       | .ok none => .ok none
       | .ok (some i) => .ok (some (i + L.length))) := by
  intro L
  induction L with
  | nil =>
    intro rest _
    simp only [List.nil_append, List.length_nil]
    cases getStatementIndexF f rest with
    | error e => rfl
    | ok r => cases r <;> rfl
  | cons q L2 ih =>
    intro rest h
    have hrec := ih rest fun p hp hps => h p (by simp [hp]) hps
    cases hq : sentInst q with
    | true =>
      have hfq : f q = .ok false := h q (by simp) hq
      rw [List.cons_append, getStatementIndexF, if_pos (by simp [hq]), hfq, hrec]
      cases getStatementIndexF f rest with
      | error e => rfl
      | ok r =>
        cases r with
        | none => rfl
        | some i =>
          simp only [Option.map_some', List.length_cons, Except.ok.injEq,
            Option.some.injEq]
          omega
    | false =>
      rw [List.cons_append, getStatementIndexF, if_neg (by simp [hq]), hrec]
      cases getStatementIndexF f rest with
      | error e => rfl
      | ok r =>
        cases r with
        | none => rfl
        | some i =>
          simp only [Option.map_some', List.length_cons, Except.ok.injEq,
            Option.some.injEq]
          omega

theorem eraseIdx_append_two {α : Type} (p : List α) (x y : α) :
    (p ++ [x, y]).eraseIdx p.length = p ++ [y] := by
  induction p with
  | nil => rfl
  | cons a l ih => simp [List.eraseIdx, ih]

theorem eraseIdx_append_one {α : Type} (p : List α) (y : α) :
    (p ++ [y]).eraseIdx p.length = p := by
  induction p with
  | nil => rfl
  | cons a l ih => simp [List.eraseIdx, ih]

theorem get?_append_self {α : Type} (p : List α) (y : α) (rest : List α) :
    (p ++ y :: rest).get? p.length = some y := by
  induction p with
  | nil => rfl
  | cons a l ih => simpa using ih

/-- C6: on a server block whose contents report `['foo','bar']` absent (the
duplicate scan returns false), have no `foo` directive, and whose tabbing
probe succeeds, `add_directives([['foo','bar']])` appends exactly the new
`foo` sentence immediately followed by the managed-comment marker, leaving
every earlier child untouched; a subsequent `remove_directives('foo')`
removes exactly that directive and its marker, restoring the original child
sequence, so every other sibling keeps its identity and position. -/
theorem C6_marker_pairing
    (n : Nat) (env : Env) (cache : Cache) (L : List Parsed) (tabs : String)
    (henv : env.hooks = NGINX_PARSING_HOOKS) (hn : 0 < n)
    (hcont : containsExactF n cache L [.tok "foo", .tok "bar"] = .ok false)
    (hdir : getDirectivesF n cache L "foo" = .ok [])
    (htabs : getTabsL L = .ok tabs) :
    (addDirectivesF n env cache L [.lst [.tok "foo", .tok "bar"]] false).1 =
      (L ++ [Parsed.sentence ["\n" ++ tabs, "foo", " ", "bar"], certbotComment],
       cache) ∧
    ∀ (n2 : Nat) (ap2 : String → Option NAddr) (cache2 : Cache),
      (removeDirectivesF n2 ap2 cache2
        (L ++ [Parsed.sentence ["\n" ++ tabs, "foo", " ", "bar"], certbotComment])
        "foo" none).1 = L := by
  obtain ⟨m, rfl⟩ : ∃ m, n = m + 1 := ⟨n - 1, by omega⟩
  have hspace : pyIsSpace ("\n" ++ tabs) = true :=
    newlineTabs_space tabs (getTabsL_white L tabs htabs)
  have hwords : wordsOf (("\n" ++ tabs) :: ["foo", " ", "bar"]) = ["foo", "bar"] := by
    rw [show (("\n" ++ tabs) :: ["foo", " ", "bar"]) =
      ("\n" ++ tabs) :: ["foo", " ", "bar"] from rfl, wordsOf_cons_space _ hspace]
    decide
  -- facts about the original children extracted from the directive scan
  have hexfacts : ∀ p ∈ L, sentInst p = true →
      ∃ w, (wordsOfP p).head? = some w ∧ w ≠ "foo" := by
    intro p hp hps
    unfold getDirectivesF at hdir
    cases hex : expandL (m + 1) cache L with
    | error e => rw [hex] at hdir; simp at hdir
    | ok ex =>
      rw [hex] at hdir
      exact filterDirectives_nil_all hdir p (expandL_mem (m + 1) cache L ex hex p hp) hps
  have hskip : ∀ p ∈ L, sentInst p = true →
      removeMatch "foo" none p = .ok false := by
    intro p hp hps
    obtain ⟨w, hw, hwne⟩ := hexfacts p hp hps
    unfold removeMatch headWord
    rw [hw]
    simp only
    rw [if_neg hwne]
  constructor
  · -- the add path
    have hparse : parseRawF (m + 1) env true (.lst [.tok "foo", .tok "bar"]) cache =
        .ok (.sentence ["foo", " ", "bar"], cache) := by
      simp only [parseRawF]
      rw [henv]
      rfl
    unfold addDirectivesF addDirectivesGo addDirectiveF
    simp only [stmtPat]
    rw [hcont]
    simp only [Bool.false_eq_true, if_false, stmtHeadCheck]
    rw [if_neg (by decide : ¬ ("foo" ∈ REPEATABLE_DIRECTIVES)), hdir]
    dsimp only
    rw [if_neg (by simp)]
    unfold addStatementF
    rw [hparse]
    dsimp only
    rw [htabs]
    dsimp only
    simp only [setTabsP]
    have hcn : isCommentNode (Parsed.sentence (("\n" ++ tabs) :: ["foo", " ", "bar"])) =
        false := by
      simp [isCommentNode, isComment, hwords, sentInst, sentData]
    simp only [Bool.false_eq_true, if_false, hcn]
    have hins : (L ++ [Parsed.sentence (("\n" ++ tabs) :: ["foo", " ", "bar"])]).insertIdx
        (L.length + 1) certbotComment =
        L ++ [Parsed.sentence (("\n" ++ tabs) :: ["foo", " ", "bar"]), certbotComment] := by
      have hl : (L ++ [Parsed.sentence (("\n" ++ tabs) :: ["foo", " ", "bar"])]).length =
          L.length + 1 := by simp
      rw [← hl, List.insertIdx_length_self]
      simp
    rw [hins]
    rfl
  · -- the removal path
    intro n2 ap2 cache2
    have hwp : wordsOfP (Parsed.sentence (("\n" ++ tabs) :: ["foo", " ", "bar"])) =
        ["foo", "bar"] := by
      simp only [wordsOfP, sentData]
      exact hwords
    have hhw : headWord (Parsed.sentence (("\n" ++ tabs) :: ["foo", " ", "bar"])) =
        .ok "foo" := by
      unfold headWord
      rw [hwp]
      rfl
    have hmf : removeMatch "foo" none
        (Parsed.sentence (("\n" ++ tabs) :: ["foo", " ", "bar"])) = .ok true := by
      unfold removeMatch
      rw [hhw]
      rfl
    have hidx1 : getStatementIndexF (removeMatch "foo" none)
        [Parsed.sentence (("\n" ++ tabs) :: ["foo", " ", "bar"]), certbotComment] =
        .ok (some 0) := by
      rw [getStatementIndexF, if_pos (by simp [sentInst] : sentInst
        (Parsed.sentence (("\n" ++ tabs) :: ["foo", " ", "bar"])) = true), hmf]
    have hidxL : getStatementIndexF (removeMatch "foo" none)
        (L ++ [Parsed.sentence (("\n" ++ tabs) :: ["foo", " ", "bar"]), certbotComment]) =
        .ok (some L.length) := by
      rw [getStatementIndex_append_skip (removeMatch "foo" none) L
        [Parsed.sentence (("\n" ++ tabs) :: ["foo", " ", "bar"]), certbotComment] hskip,
        hidx1]
      simp
    have hidxL0 : getStatementIndexF (removeMatch "foo" none) L = .ok none := by
      have h0 := getStatementIndex_append_skip (removeMatch "foo" none) L [] hskip
      simpa [getStatementIndexF] using h0
    have hrm : removeStatementsF (removeMatch "foo" none)
        (L ++ [Parsed.sentence (("\n" ++ tabs) :: ["foo", " ", "bar"]), certbotComment]) =
        (L, none) := by
      unfold removeStatementsF
      rw [show (L ++ [Parsed.sentence (("\n" ++ tabs) :: ["foo", " ", "bar"]),
        certbotComment]).length + 1 = (L.length + 2) + 1 from by simp]
      rw [removeGo, hidxL]
      dsimp only
      rw [eraseIdx_append_two, get?_append_self]
      dsimp only
      rw [if_pos (by decide : isCertbotComment certbotComment = true)]
      rw [eraseIdx_append_one]
      rw [show L.length + 2 = (L.length + 1) + 1 from rfl]
      rw [removeGo, hidxL0]
    unfold removeDirectivesF
    rw [hrm]

/-- C6 witness: a concrete server block with one `listen` directive gains the
`foo bar` sentence plus marker, and removal restores the original child. -/
theorem C6_marker_pairing_witness :
    (addDirectivesF 5 envNoFs [] [Parsed.sentence ["listen", " ", "80"]]
        [.lst [.tok "foo", .tok "bar"]] false).1 =
      ([Parsed.sentence ["listen", " ", "80"],
        Parsed.sentence ["\n" ++ "", "foo", " ", "bar"], certbotComment], []) ∧
    (removeDirectivesF 5 (fun _ => none) []
        [Parsed.sentence ["listen", " ", "80"],
         Parsed.sentence ["\n" ++ "", "foo", " ", "bar"], certbotComment]
        "foo" none).1 =
      [Parsed.sentence ["listen", " ", "80"]] := by
  have h := C6_marker_pairing 5 envNoFs [] [Parsed.sentence ["listen", " ", "80"]] ""
      rfl (by omega) rfl rfl rfl
  exact ⟨h.1, h.2 5 (fun _ => none) []⟩

theorem mem_foldl_insert {x : String} : ∀ (ws : List String) (s : Finset String),
    (x ∈ s ∨ x ∈ ws) → x ∈ ws.foldl (fun s w => insert w s) s := by
  intro ws
  induction ws with
  | nil =>
    intro s h
    rcases h with h | h
    · simpa using h
    · simp at h
  | cons w rest ih =>
    intro s h
    rw [List.foldl_cons]
    apply ih
    rcases h with h | h
    · left; exact Finset.mem_insert_of_mem h
    · rcases List.mem_cons.mp h with rfl | h2
      · left; exact Finset.mem_insert_self x s
      · right; exact h2

theorem mem_foldl_names {x : String} :
    ∀ (ds : List Parsed) (acc : Finset String),
    (x ∈ acc ∨ ∃ p ∈ ds, x ∈ (wordsOfP p).tail) →
    x ∈ ds.foldl (fun acc p => (wordsOfP p).tail.foldl (fun s w => insert w s) acc) acc := by
  intro ds
  induction ds with
  | nil =>
    intro acc h
    rcases h with h | ⟨p, hp, _⟩
    · simpa using h
    · simp at hp
  | cons q rest ih =>
    intro acc h
    rw [List.foldl_cons]
    apply ih
    rcases h with h | ⟨p, hp, hx⟩
    · left; exact mem_foldl_insert _ acc (Or.inl h)
    · rcases List.mem_cons.mp hp with rfl | h2
      · left; exact mem_foldl_insert _ acc (Or.inr hx)
      · right; exact ⟨p, h2, hx⟩

theorem mem_foldl_addrs {a : NAddr} (ap : String → Option NAddr) :
    ∀ (ds : List Parsed) (acc : Finset NAddr × Bool),
    (a ∈ acc.1 ∨ ∃ p ∈ ds, ap (joinSp (wordsOfP p).tail) = some a) →
    a ∈ (ds.foldl (fun acc p =>
      match ap (joinSp (wordsOfP p).tail) with
      | some b => (insert b acc.1, acc.2 || b.ssl)
      | none => acc) acc).1 := by
  intro ds
  induction ds with
  | nil =>
    intro acc h
    rcases h with h | ⟨p, hp, _⟩
    · simpa using h
    · simp at hp
  | cons q rest ih =>
    intro acc h
    rw [List.foldl_cons]
    apply ih
    rcases h with h | ⟨p, hp, hx⟩
    · left
      cases hq : ap (joinSp (wordsOfP q).tail) with
      | none => simpa using h
      | some b => simpa using Finset.mem_insert_of_mem h
    · rcases List.mem_cons.mp hp with rfl | h2
      · left
        rw [hx]
        simpa using Finset.mem_insert_self a acc.1
      · right; exact ⟨p, h2, hx⟩

theorem filterDirectives_mem {name : String} : ∀ {ex ds : List Parsed},
    filterDirectives name ex = .ok ds →
    ∀ p ∈ ex, sentInst p = true → (wordsOfP p).head? = some name → p ∈ ds := by
  intro ex
  induction ex with
  | nil => intro ds _ p hp; simp at hp
  | cons q rest ih =>
    intro ds h p hp hps hhd
    cases hq : sentInst q with
    | false =>
      rw [filterDirectives, if_neg (by simp [hq])] at h
      rcases List.mem_cons.mp hp with rfl | hp2
      · rw [hq] at hps; simp at hps
      · exact ih h p hp2 hps hhd
    | true =>
      rw [filterDirectives, if_pos (by simp [hq])] at h
      cases hw : headWord q with
      | error e => rw [hw] at h; simp at h
      | ok w =>
        rw [hw] at h
        cases htail : filterDirectives name rest with
        | error e => rw [htail] at h; simp at h
        | ok tail =>
          rw [htail] at h
          simp only [Except.ok.injEq] at h
          rcases List.mem_cons.mp hp with rfl | hp2
          · have hwn : w = name := by
              have := headWord_ok hw
              rw [this] at hhd
              have : name = w := by simpa using hhd.symm
              exact this.symm
            rw [← h, if_pos hwn]
            simp
          · have hmem := ih htail p hp2 hps hhd
            rw [← h]
            by_cases hwn : w = name
            · rw [if_pos hwn]; simp [hmem]
            · rw [if_neg hwn]; exact hmem

/-- C9: for the example server block (two `listen` and two `server_name`
directives), with the external address helper returning the claimed records,
the derived virtual-host view holds exactly those two addresses, the two
name patterns and `ssl = false`; and in general every `server_name`
directive's argument words are unioned into the name set while every
successfully parsed `listen` argument is added to the address set. -/
theorem C9_vhost :
    (∀ (n : Nat) (ap : String → Option NAddr) (cache : Cache),
      ap "69.50.225.155:9000" = some ⟨"69.50.225.155", "9000", false, false⟩ →
      ap "127.0.0.1" = some ⟨"127.0.0.1", "", false, false⟩ →
      updateVhostF (n + 5) ap cache
        [Parsed.sentence ["listen", " ", "69.50.225.155:9000"],
         Parsed.sentence ["listen", " ", "127.0.0.1"],
         Parsed.sentence ["server_name", " ", ".example.com"],
         Parsed.sentence ["server_name", " ", "example.*"]] =
        .ok ⟨{⟨"69.50.225.155", "9000", false, false⟩, ⟨"127.0.0.1", "", false, false⟩},
             false, {".example.com", "example.*"}⟩) ∧
    (∀ (n : Nat) (ap : String → Option NAddr) (cache : Cache) (L : List Parsed)
       (v : VHost) (ex : List Parsed),
      updateVhostF n ap cache L = .ok v → expandL n cache L = .ok ex →
      (∀ p ∈ ex, sentInst p = true → ∀ args, wordsOfP p = "server_name" :: args →
        ∀ x ∈ args, x ∈ v.names) ∧
      (∀ p ∈ ex, sentInst p = true → ∀ args a, wordsOfP p = "listen" :: args →
        ap (joinSp args) = some a → a ∈ v.addrs)) := by
  constructor
  · intro n ap cache h1 h2
    have hl : getDirectivesF (n + 5) cache
        [Parsed.sentence ["listen", " ", "69.50.225.155:9000"],
         Parsed.sentence ["listen", " ", "127.0.0.1"],
         Parsed.sentence ["server_name", " ", ".example.com"],
         Parsed.sentence ["server_name", " ", "example.*"]] "listen" =
        .ok [Parsed.sentence ["listen", " ", "69.50.225.155:9000"],
             Parsed.sentence ["listen", " ", "127.0.0.1"]] := rfl
    have hs : getDirectivesF (n + 5) cache
        [Parsed.sentence ["listen", " ", "69.50.225.155:9000"],
         Parsed.sentence ["listen", " ", "127.0.0.1"],
         Parsed.sentence ["server_name", " ", ".example.com"],
         Parsed.sentence ["server_name", " ", "example.*"]] "server_name" =
        .ok [Parsed.sentence ["server_name", " ", ".example.com"],
             Parsed.sentence ["server_name", " ", "example.*"]] := rfl
    have hss : getDirectivesF (n + 5) cache
        [Parsed.sentence ["listen", " ", "69.50.225.155:9000"],
         Parsed.sentence ["listen", " ", "127.0.0.1"],
         Parsed.sentence ["server_name", " ", ".example.com"],
         Parsed.sentence ["server_name", " ", "example.*"]] "ssl" = .ok [] := rfl
    unfold updateVhostF
    rw [hl, hs, hss]
    dsimp only
    rw [List.foldl_cons, List.foldl_cons, List.foldl_nil]
    rw [show joinSp (wordsOfP
      (Parsed.sentence ["listen", " ", "69.50.225.155:9000"])).tail =
      "69.50.225.155:9000" from rfl, h1]
    dsimp only
    rw [show joinSp (wordsOfP
      (Parsed.sentence ["listen", " ", "127.0.0.1"])).tail =
      "127.0.0.1" from rfl, h2]
    dsimp only
    rw [show sslFold (false || false || false) [] = .ok false from rfl]
    dsimp only
    rw [show List.foldl (fun acc p =>
        List.foldl (fun s w => insert w s) acc (wordsOfP p).tail) ∅
        [Parsed.sentence ["server_name", " ", ".example.com"],
         Parsed.sentence ["server_name", " ", "example.*"]] =
        (insert "example.*" (insert ".example.com" ∅) : Finset String) from rfl]
    exact congrArg Except.ok (by
      simp only [VHost.mk.injEq]
      refine ⟨by decide, trivial, by decide⟩)
  · intro n ap cache L v ex hv hex
    unfold updateVhostF getDirectivesF at hv
    rw [hex] at hv
    dsimp only at hv
    cases hfl : filterDirectives "listen" ex with
    | error e => rw [hfl] at hv; simp at hv
    | ok listens =>
      rw [hfl] at hv
      dsimp only at hv
      cases hfs : filterDirectives "server_name" ex with
      | error e => rw [hfs] at hv; simp at hv
      | ok snames =>
        rw [hfs] at hv
        dsimp only at hv
        cases hfss : filterDirectives "ssl" ex with
        | error e => rw [hfss] at hv; simp at hv
        | ok ssls =>
          rw [hfss] at hv
          dsimp only at hv
          split at hv
          case h_1 => simp at hv
          case h_2 ssl hsf =>
            simp only [Except.ok.injEq] at hv
            constructor
            · intro p hp hps args hw x hx
              have hpd : p ∈ snames :=
                filterDirectives_mem hfs p hp hps (by rw [hw]; rfl)
              have hxn : x ∈ snames.foldl (fun acc p =>
                  (wordsOfP p).tail.foldl (fun s w => insert w s) acc) ∅ :=
                mem_foldl_names snames ∅ (Or.inr ⟨p, hpd, by rw [hw]; simpa using hx⟩)
              rw [← hv]
              exact hxn
            · intro p hp hps args a hw ha
              have hpd : p ∈ listens :=
                filterDirectives_mem hfl p hp hps (by rw [hw]; rfl)
              have hxn : a ∈ (listens.foldl (fun acc p =>
                  match ap (joinSp (wordsOfP p).tail) with
                  | some b => (insert b acc.1, acc.2 || b.ssl)
                  | none => acc) ((∅ : Finset NAddr), false)).1 :=
                mem_foldl_addrs ap listens (∅, false)
                  (Or.inr ⟨p, hpd, by rw [hw]; exact ha⟩)
              rw [← hv]
              exact hxn

/-- C9 witness: a concrete address helper realizing the claimed parses. -/
theorem C9_vhost_witness :
    updateVhostF 5 (fun s =>
        if s = "69.50.225.155:9000"
        then some ⟨"69.50.225.155", "9000", false, false⟩
        else if s = "127.0.0.1" then some ⟨"127.0.0.1", "", false, false⟩
        else none) []
      [Parsed.sentence ["listen", " ", "69.50.225.155:9000"],
       Parsed.sentence ["listen", " ", "127.0.0.1"],
       Parsed.sentence ["server_name", " ", ".example.com"],
       Parsed.sentence ["server_name", " ", "example.*"]] =
      .ok ⟨{⟨"69.50.225.155", "9000", false, false⟩, ⟨"127.0.0.1", "", false, false⟩},
           false, {".example.com", "example.*"}⟩ :=
  C9_vhost.1 0 (fun s =>
      if s = "69.50.225.155:9000"
      then some ⟨"69.50.225.155", "9000", false, false⟩
      else if s = "127.0.0.1" then some ⟨"127.0.0.1", "", false, false⟩
      else none) [] rfl rfl

theorem getStatementIndex_sent : ∀ (f : Parsed → Res Bool) (L : List Parsed) (i : Nat),
    getStatementIndexF f L = .ok (some i) →
    ∃ p, L.get? i = some p ∧ sentInst p = true := by
  intro f L
  induction L with
  | nil => intro i h; rw [getStatementIndexF] at h; simp at h
  | cons q rest ih =>
    intro i h
    cases hq : sentInst q with
    | true =>
      rw [getStatementIndexF, if_pos (by simp [hq])] at h
      cases hf : f q with
      | error e => rw [hf] at h; simp at h
      | ok b =>
        rw [hf] at h
        cases b with
        | true =>
          simp only [Except.ok.injEq, Option.some.injEq] at h
          exact ⟨q, by rw [← h]; rfl, hq⟩
        | false =>
          cases hr : getStatementIndexF f rest with
          | error e => rw [hr] at h; simp at h
          | ok r =>
            rw [hr] at h
            cases r with
            | none => simp at h
            | some i2 =>
              simp only [Option.map_some', Except.ok.injEq, Option.some.injEq] at h
              obtain ⟨p, hp, hps⟩ := ih i2 hr
              exact ⟨p, by rw [← h]; simpa using hp, hps⟩
    | false =>
      rw [getStatementIndexF, if_neg (by simp [hq])] at h
      cases hr : getStatementIndexF f rest with
      | error e => rw [hr] at h; simp at h
      | ok r =>
        rw [hr] at h
        cases r with
        | none => simp at h
        | some i2 =>
          simp only [Option.map_some', Except.ok.injEq, Option.some.injEq] at h
          obtain ⟨p, hp, hps⟩ := ih i2 hr
          exact ⟨p, by rw [← h]; simpa using hp, hps⟩

theorem filter_eraseIdx_sent : ∀ (L : List Parsed) (i : Nat) (p : Parsed),
    L.get? i = some p → sentInst p = true →
    (L.eraseIdx i).filter (fun q => !sentInst q) = L.filter (fun q => !sentInst q) := by
  intro L
  induction L with
  | nil => intro i p h; simp at h
  | cons q rest ih =>
    intro i p h hps
    cases i with
    | zero =>
      simp only [List.get?_cons_zero, Option.some.injEq] at h
      rw [← h] at hps
      simp [List.eraseIdx, List.filter_cons, hps]
    | succ i2 =>
      simp only [List.get?_cons_succ] at h
      simp only [List.eraseIdx, List.filter_cons, ih i2 p h hps]

theorem isCertbotComment_sent {q : Parsed} (h : isCertbotComment q = true) :
    sentInst q = true := by
  unfold isCertbotComment at h
  cases hs : sentInst q with
  | true => rfl
  | false => rw [hs] at h; simp at h

theorem removeGo_frame : ∀ (f : Parsed → Res Bool) (fuel : Nat) (L : List Parsed),
    ((removeGo f fuel L).1).filter (fun q => !sentInst q) =
      L.filter (fun q => !sentInst q) := by
  intro f fuel
  induction fuel with
  | zero => intro L; rfl
  | succ n ih =>
    intro L
    rw [removeGo]
    cases hidx : getStatementIndexF f L with
      | error e => rfl
      | ok r =>
        cases r with
        | none => rfl
        | some i =>
          dsimp only
          obtain ⟨p, hp, hps⟩ := getStatementIndex_sent f L i hidx
          have h1 := filter_eraseIdx_sent L i p hp hps
          cases hg : (L.eraseIdx i).get? i with
          | none =>
            dsimp only
            rw [ih, h1]
          | some q2 =>
            dsimp only
            by_cases hcc : isCertbotComment q2 = true
            · rw [if_pos hcc, ih,
                filter_eraseIdx_sent (L.eraseIdx i) i q2 hg (isCertbotComment_sent hcc),
                h1]
            · rw [if_neg hcc, ih, h1]

/-- C10: the removal machinery deletes only `Sentence` instances: for any
match function and any fuel, every direct child that is not a `Sentence`
instance (every `Bloc` and `ServerBloc`) survives `remove_statements` (and
hence `remove_directives`) unchanged and in order; and whenever
`_get_statement_index` — the scan `replace_statement` uses to pick the child
it overwrites — finds an index, the child at that index is a `Sentence`
instance, so a `Bloc` child is never overwritten. -/
theorem C10_remove_frame :
    (∀ (f : Parsed → Res Bool) (fuel : Nat) (L : List Parsed),
      ((removeGo f fuel L).1).filter (fun q => !sentInst q) =
        L.filter (fun q => !sentInst q)) ∧
    (∀ (n : Nat) (ap : String → Option NAddr) (cache : Cache) (L : List Parsed)
       (name : String) (matchF : Option (Parsed → Res Bool)),
      ((removeDirectivesF n ap cache L name matchF).1).filter (fun q => !sentInst q) =
        L.filter (fun q => !sentInst q)) ∧
    (∀ (f : Parsed → Res Bool) (L : List Parsed) (i : Nat),
      getStatementIndexF f L = .ok (some i) →
      ∃ p, L.get? i = some p ∧ sentInst p = true) := by
  refine ⟨removeGo_frame, ?_, getStatementIndex_sent⟩
  intro n ap cache L name matchF
  have hframe := removeGo_frame (removeMatch name matchF) (L.length + 1) L
  unfold removeDirectivesF removeStatementsF
  rcases hr : removeGo (removeMatch name matchF) (L.length + 1) L with ⟨L2, e⟩
  rw [hr] at hframe
  cases e with
  | none => exact hframe
  | some err => exact hframe

/-- C10 witness: a block whose children are a nested bloc and a `foo`
sentence; removal deletes the sentence but the bloc survives, and the index
scan lands on the sentence. -/
theorem C10_remove_frame_witness :
    ∃ p, [Parsed.bloc false ["location"] [] none,
          Parsed.sentence ["foo", " ", "bar"]].get? 1 = some p ∧ sentInst p = true :=
  C10_remove_frame.2.2 (removeMatch "foo" none)
    [Parsed.bloc false ["location"] [] none, Parsed.sentence ["foo", " ", "bar"]] 1 rfl

theorem cacheLookup_insert_self (f : String) (d : Doc) (c : Cache) :
    cacheLookup (cacheInsert f d c) f = some d := by
  simp [cacheLookup, cacheInsert]

theorem cacheLookup_insert_ne {f g : String} (hne : g ≠ f) (d : Doc) (c : Cache) :
    cacheLookup (cacheInsert g d c) f = cacheLookup c f := by
  simp [cacheLookup, cacheInsert, hne]

theorem cache_preserved : ∀ n : Nat,
    (∀ env a raw cache p c2, parseRawF n env a raw cache = .ok (p, c2) →
      ∀ f d, cacheLookup cache f = some d → cacheLookup c2 f = some d) ∧
    (∀ env a raw cache sv p c2, parseBlocF n env a raw cache sv = .ok (p, c2) →
      ∀ f d, cacheLookup cache f = some d → cacheLookup c2 f = some d) ∧
    (∀ env a l cache ps c2, parseListF n env a l cache = .ok (ps, c2) →
      ∀ f d, cacheLookup cache f = some d → cacheLookup c2 f = some d) ∧
    (∀ env fs cache c2, parseFilesF n env fs cache = .ok c2 →
      ∀ f d, cacheLookup cache f = some d → cacheLookup c2 f = some d) ∧
    (∀ env f0 cache c2, cacheLookup cache f0 = none → loadFromF n env f0 cache = .ok c2 →
      ∀ f d, cacheLookup cache f = some d → cacheLookup c2 f = some d) := by
  intro n
  induction n with
  | zero =>
    refine ⟨?_, ?_, ?_, ?_, ?_⟩ <;> intros <;>
      simp_all [parseRawF, parseBlocF, parseListF, parseFilesF, loadFromF]
  | succ n ih =>
    obtain ⟨ihr, ihb, ihl, ihf, ihload⟩ := ih
    refine ⟨?_, ?_, ?_, ?_, ?_⟩
    · intro env a raw cache p c2 h f d hf
      simp only [parseRawF] at h
      cases hk : chooseParser env.hooks raw with
      | error e => rw [hk] at h; simp at h
      | ok k =>
        rw [hk] at h
        cases k with
        | statements =>
          cases raw with
          | tok s => simp at h
          | lst l =>
            simp only at h
            cases hpl : parseListF n env a (stripTrailing l).1 cache with
            | error e => rw [hpl] at h; simp at h
            | ok pc =>
              obtain ⟨ps, c3⟩ := pc
              rw [hpl] at h
              simp only [Except.ok.injEq, Prod.mk.injEq] at h
              rw [← h.2]
              exact ihl env a _ cache ps c3 hpl f d hf
        | sentence =>
          cases raw with
          | tok s => simp at h
          | lst l =>
            simp only at h
            cases hws : asStrings l with
            | none => rw [hws] at h; simp at h
            | some ws =>
              rw [hws] at h
              simp only [Except.ok.injEq, Prod.mk.injEq] at h
              rw [← h.2]
              exact hf
        | incl =>
          cases raw with
          | tok s => simp at h
          | lst l =>
            simp only at h
            cases hws : asStrings l with
            | none => rw [hws] at h; simp at h
            | some ws =>
              rw [hws] at h
              simp only at h
              cases hpat : (wordsOf (if a then spaceList ws else ws)).get? 1 with
              | none => rw [hpat] at h; simp at h
              | some pat =>
                rw [hpat] at h
                simp only at h
                cases hc : parseFilesF n env (env.fs.glob env.cwd pat) cache with
                | error e => rw [hc] at h; simp at h
                | ok c3 =>
                  rw [hc] at h
                  simp only [Except.ok.injEq, Prod.mk.injEq] at h
                  rw [← h.2]
                  exact ihf env _ cache c3 hc f d hf
        | bloc => exact ihb env a raw cache false p c2 h f d hf
        | serverBloc => exact ihb env a raw cache true p c2 h f d hf
    · intro env a raw cache sv p c2 h f d hf
      simp only [parseBlocF] at h
      cases raw with
      | tok s => simp at h
      | lst l =>
        match l with
        | [] => simp at h
        | [x] => simp at h
        | x :: y :: z :: rest => simp at h
        | [x, b] =>
          cases x with
          | tok s => simp at h
          | lst la =>
            simp only at h
            cases hns : asStrings la with
            | none => rw [hns] at h; simp at h
            | some ns0 =>
              rw [hns] at h
              cases b with
              | tok s => simp at h
              | lst lb =>
                simp only at h
                cases hpl : parseListF n env a (stripTrailing lb).1 cache with
                | error e => rw [hpl] at h; simp at h
                | ok pc =>
                  obtain ⟨cs, c3⟩ := pc
                  rw [hpl] at h
                  have hpres := ihl env a _ cache cs c3 hpl f d hf
                  cases sv with
                  | false =>
                    simp only [Bool.false_eq_true, if_false, Except.ok.injEq,
                      Prod.mk.injEq] at h
                    rw [← h.2]
                    exact hpres
                  | true =>
                    simp only [if_true] at h
                    cases hv : updateVhostF n env.addrParse c3 cs with
                    | error e => rw [hv] at h; simp at h
                    | ok v =>
                      rw [hv] at h
                      simp only [Except.ok.injEq, Prod.mk.injEq] at h
                      rw [← h.2]
                      exact hpres
    · intro env a l cache ps c2 h f d hf
      cases l with
      | nil =>
        simp only [parseListF, Except.ok.injEq, Prod.mk.injEq] at h
        rw [← h.2]
        exact hf
      | cons r rest =>
        simp only [parseListF] at h
        cases hp : parseRawF n env a r cache with
        | error e => rw [hp] at h; simp at h
        | ok pc =>
          obtain ⟨p1, c3⟩ := pc
          rw [hp] at h
          simp only at h
          cases hq : parseListF n env a rest c3 with
          | error e => rw [hq] at h; simp at h
          | ok qc =>
            obtain ⟨ps1, c4⟩ := qc
            rw [hq] at h
            simp only [Except.ok.injEq, Prod.mk.injEq] at h
            rw [← h.2]
            exact ihl env a rest c3 ps1 c4 hq f d
              (ihr env a r cache p1 c3 hp f d hf)
    · intro env fs cache c2 h f d hf
      cases fs with
      | nil =>
        simp only [parseFilesF, Except.ok.injEq] at h
        rw [← h]
        exact hf
      | cons f1 fs2 =>
        simp only [parseFilesF] at h
        cases hlk : cacheLookup cache f1 with
        | some d1 =>
          rw [hlk] at h
          exact ihf env fs2 cache c2 h f d hf
        | none =>
          rw [hlk] at h
          cases hld : loadFromF n env f1 cache with
          | error e => rw [hld] at h; simp at h
          | ok c3 =>
            rw [hld] at h
            exact ihf env fs2 c3 c2 h f d
              (ihload env f1 cache c3 hlk hld f d hf)
    · intro env f0 cache c2 h0 h f d hf
      simp only [loadFromF] at h
      cases hrd : env.fs.read env.cwd f0 with
      | none => rw [hrd] at h; simp at h
      | some rawOpt =>
        rw [hrd] at h
        simp only at h
        cases hro : rawOpt.getD (.lst []) with
        | tok s => rw [hro] at h; simp at h
        | lst l =>
          rw [hro] at h
          simp only at h
          cases hpl : parseListF n env false (stripTrailing l).1 cache with
          | error e => rw [hpl] at h; simp at h
          | ok pc =>
            obtain ⟨ps, c3⟩ := pc
            rw [hpl] at h
            simp only [Except.ok.injEq] at h
            rw [← h]
            have hne : f0 ≠ f := by
              intro hcon
              rw [hcon] at h0
              rw [h0] at hf
              simp at hf
            rw [cacheLookup_insert_ne hne]
            exact ihl env false _ cache ps c3 hpl f d hf

/-- C2: (a) parsing an `Include` never reloads or replaces a store entry for
an already-parsed filename — every existing `filename → Statements` binding
survives unchanged, so a second `Include` resolving to the same absolute
filename aliases the very same stored document rather than a copy; (b) an
include dereferences the shared store when expanded: with `f` bound to `d`,
inlining `[f]` yields exactly the expansion of `d`'s children; (c) after the
shared document at `f` is replaced (a mutation through any inclusion site),
any two includes of `f` — whatever their own token data — both expand to the
new document, so the mutation is visible through both sites. -/
theorem C2_include_identity :
    (∀ (n : Nat) (env : Env) (a : Bool) (raw : Raw) (cache : Cache)
       (data files : List String) (c2 : Cache),
      parseRawF n env a raw cache = .ok (.incl data files, c2) →
      ∀ f d, cacheLookup cache f = some d → cacheLookup c2 f = some d) ∧
    (∀ (n : Nat) (cache : Cache) (f : String) (d : Doc) (ex : List Parsed),
      cacheLookup cache f = some d →
      expandL (n + 1) cache d.data = .ok ex →
      expandF (n + 2) cache [f] = .ok ex) ∧
    (∀ (n : Nat) (cache : Cache) (f : String) (dNew : Doc)
       (data1 data2 : List String) (ex : List Parsed),
      expandL (n + 1) (cacheInsert f dNew cache) dNew.data = .ok ex →
      expandL (n + 3) (cacheInsert f dNew cache) [.incl data1 [f]] =
        .ok (ex ++ [.incl data1 [f]]) ∧
      expandL (n + 3) (cacheInsert f dNew cache) [.incl data2 [f]] =
        .ok (ex ++ [.incl data2 [f]])) := by
  have hderef : ∀ (n : Nat) (cache : Cache) (f : String) (d : Doc) (ex : List Parsed),
      cacheLookup cache f = some d → expandL (n + 1) cache d.data = .ok ex →
      expandF (n + 2) cache [f] = .ok ex := by
    intro n cache f d ex hlk hex
    rw [show n + 2 = (n + 1) + 1 from rfl, expandF, hlk]
    simp only
    rw [hex]
    rw [show expandF (n + 1) cache [] = .ok [] from rfl]
    simp [bind, Except.bind, pure, Except.pure]
  refine ⟨fun n env a raw cache data files c2 h =>
    (cache_preserved n).1 env a raw cache _ c2 h, hderef, ?_⟩
  intro n cache f dNew data1 data2 ex hex
  have hF := hderef n (cacheInsert f dNew cache) f dNew ex
    (cacheLookup_insert_self f dNew cache) hex
  constructor <;>
  · rw [show n + 3 = (n + 2) + 1 from rfl, expandL, hF]
    rw [show expandL (n + 2) (cacheInsert f dNew cache) [] = .ok [] from rfl]
    simp [bind, Except.bind, pure, Except.pure]

/-- C2 witness: parsing an include of `inc.conf` against a store already
holding `inc.conf` keeps the stored document, and after replacing the shared
document both inclusion sites expand to the replacement. -/
theorem C2_include_identity_witness :
    cacheLookup [("inc.conf", (⟨[Parsed.sentence ["x", " ", "y"]], none⟩ : Doc))]
        "inc.conf" = some ⟨[Parsed.sentence ["x", " ", "y"]], none⟩ ∧
    expandL 4 (cacheInsert "inc.conf" ⟨[Parsed.sentence ["z"]], none⟩ [])
        [Parsed.incl ["include", " ", "inc.conf"] ["inc.conf"]] =
      .ok [Parsed.sentence ["z"], Parsed.incl ["include", " ", "inc.conf"] ["inc.conf"]] ∧
    expandL 4 (cacheInsert "inc.conf" ⟨[Parsed.sentence ["z"]], none⟩ [])
        [Parsed.incl ["include", "other.conf"] ["inc.conf"]] =
      .ok [Parsed.sentence ["z"], Parsed.incl ["include", "other.conf"] ["inc.conf"]] := by
  have h1 := C2_include_identity.1 10 envOne false
      (.lst [.tok "include", .tok " ", .tok "inc.conf"])
      [("inc.conf", (⟨[Parsed.sentence ["x", " ", "y"]], none⟩ : Doc))]
      ["include", " ", "inc.conf"] ["inc.conf"]
      [("inc.conf", (⟨[Parsed.sentence ["x", " ", "y"]], none⟩ : Doc))]
      rfl "inc.conf" ⟨[Parsed.sentence ["x", " ", "y"]], none⟩ rfl
  have h3 := C2_include_identity.2.2 1 [] "inc.conf" ⟨[Parsed.sentence ["z"]], none⟩
      ["include", " ", "inc.conf"] ["include", "other.conf"]
      [Parsed.sentence ["z"]] rfl
  exact ⟨h1, h3.1, h3.2⟩

theorem expandL_cons_eq (n : Nat) (cache : Cache) (q : Parsed) (rest : List Parsed) :
    expandL (n + 1) cache (q :: rest) =
      match headOf n cache q with
      | .error e => .error e
      | .ok h =>
        match expandL n cache rest with
        | .error e => .error e
        | .ok t => .ok (h ++ t) := by
  cases q with
  | incl d fs =>
    rw [expandL]
    cases hf : expandF n cache fs with
    | error e => simp [headOf, hf, bind, Except.bind]
    | ok subs =>
      cases ht : expandL n cache rest with
      | error e => simp [headOf, hf, ht, bind, Except.bind, pure, Except.pure]
      | ok t => simp [headOf, hf, ht, bind, Except.bind, pure, Except.pure]
  | sentence d =>
    rw [expandL]
    case x_4 => intro data files hcon; cases hcon
    cases ht : expandL n cache rest with
    | error e => simp [headOf, ht, bind, Except.bind, pure, Except.pure]
    | ok t => simp [headOf, ht, bind, Except.bind, pure, Except.pure]
  | bloc sv ns cs ct =>
    rw [expandL]
    case x_4 => intro data files hcon; cases hcon
    cases ht : expandL n cache rest with
    | error e => simp [headOf, ht, bind, Except.bind, pure, Except.pure]
    | ok t => simp [headOf, ht, bind, Except.bind, pure, Except.pure]
  | stmts ds st =>
    rw [expandL]
    case x_4 => intro data files hcon; cases hcon
    cases ht : expandL n cache rest with
    | error e => simp [headOf, ht, bind, Except.bind, pure, Except.pure]
    | ok t => simp [headOf, ht, bind, Except.bind, pure, Except.pure]

theorem expandF_cons_eq (n : Nat) (cache : Cache) (f : String) (fs : List String) :
    expandF (n + 1) cache (f :: fs) =
      match cacheLookup cache f with
      | none => .error .brokenRef
      | some d =>
        match expandL n cache d.data with
        | .error e => .error e
        | .ok inner =>
          match expandF n cache fs with
          | .error e => .error e
          | .ok t => .ok (inner ++ t) := by
  rw [expandF]
  cases hl : cacheLookup cache f with
  | none => rfl
  | some d =>
    cases hi : expandL n cache d.data with
    | error e => simp [hi, bind, Except.bind]
    | ok inner =>
      cases htl : expandF n cache fs with
      | error e => simp [hi, htl, bind, Except.bind, pure, Except.pure]
      | ok t => simp [hi, htl, bind, Except.bind, pure, Except.pure]

theorem expand_mono : ∀ n m : Nat, n ≤ m →
    (∀ cache X E, expandL n cache X = .ok E → expandL m cache X = .ok E) ∧
    (∀ cache fs E, expandF n cache fs = .ok E → expandF m cache fs = .ok E) := by
  intro n
  induction n with
  | zero =>
    intro m _
    constructor
    · intro cache X E h; rw [expandL] at h; simp at h
    · intro cache fs E h; rw [expandF] at h; simp at h
  | succ n ih =>
    intro m hm
    obtain ⟨k, rfl⟩ : ∃ k, m = k + 1 := by
      cases m with
      | zero => omega
      | succ k => exact ⟨k, rfl⟩
    have hnk : n ≤ k := by omega
    have ihL := (ih k hnk).1
    have ihF := (ih k hnk).2
    have hHead : ∀ cache q h1, headOf n cache q = .ok h1 → headOf k cache q = .ok h1 := by
      intro cache q h1 hq
      cases q with
      | incl d fs =>
        rw [show headOf n cache (.incl d fs) = (match expandF n cache fs with
          | .error e => .error e
          | .ok subs => .ok (subs ++ [Parsed.incl d fs])) from rfl] at hq
        rw [show headOf k cache (.incl d fs) = (match expandF k cache fs with
          | .error e => .error e
          | .ok subs => .ok (subs ++ [Parsed.incl d fs])) from rfl]
        cases hf : expandF n cache fs with
        | error e => rw [hf] at hq; simp at hq
        | ok subs => rw [hf] at hq; rw [ihF cache fs subs hf]; exact hq
      | sentence d => exact hq
      | bloc sv ns cs ct => exact hq
      | stmts ds st => exact hq
    constructor
    · intro cache X E h
      cases X with
      | nil => rw [expandL] at h ⊢; exact h
      | cons q rest =>
        rw [expandL_cons_eq] at h ⊢
        cases hh : headOf n cache q with
        | error e => rw [hh] at h; simp at h
        | ok h1 =>
          rw [hh] at h
          rw [hHead cache q h1 hh]
          cases ht : expandL n cache rest with
          | error e => rw [ht] at h; simp at h
          | ok t => rw [ht] at h; rw [ihL cache rest t ht]; exact h
    · intro cache fs E h
      cases fs with
      | nil => rw [expandF] at h ⊢; exact h
      | cons f fs2 =>
        rw [expandF_cons_eq] at h ⊢
        cases hl : cacheLookup cache f with
        | none => rw [hl] at h; simp at h
        | some d =>
          rw [hl] at h
          dsimp only at h ⊢
          cases hi : expandL n cache d.data with
          | error e => rw [hi] at h; simp at h
          | ok inner =>
            rw [hi] at h
            rw [ihL cache d.data inner hi]
            dsimp only at h ⊢
            cases htl : expandF n cache fs2 with
            | error e => rw [htl] at h; simp at h
            | ok t =>
              rw [htl] at h
              rw [ihF cache fs2 t htl]
              exact h

theorem expand_cache_ext : ∀ (n : Nat) (c c2 : Cache), cacheExt c c2 →
    (∀ X E, expandL n c X = .ok E → expandL n c2 X = .ok E) ∧
    (∀ fs E, expandF n c fs = .ok E → expandF n c2 fs = .ok E) := by
  intro n
  induction n with
  | zero =>
    intro c c2 _
    constructor
    · intro X E h; rw [expandL] at h; simp at h
    · intro fs E h; rw [expandF] at h; simp at h
  | succ n ih =>
    intro c c2 hext
    have ihL := (ih c c2 hext).1
    have ihF := (ih c c2 hext).2
    have hHead : ∀ q h1, headOf n c q = .ok h1 → headOf n c2 q = .ok h1 := by
      intro q h1 hq
      cases q with
      | incl d fs =>
        rw [show headOf n c (.incl d fs) = (match expandF n c fs with
          | .error e => .error e
          | .ok subs => .ok (subs ++ [Parsed.incl d fs])) from rfl] at hq
        rw [show headOf n c2 (.incl d fs) = (match expandF n c2 fs with
          | .error e => .error e
          | .ok subs => .ok (subs ++ [Parsed.incl d fs])) from rfl]
        cases hf : expandF n c fs with
        | error e => rw [hf] at hq; simp at hq
        | ok subs => rw [hf] at hq; rw [ihF fs subs hf]; exact hq
      | sentence d => exact hq
      | bloc sv ns cs ct => exact hq
      | stmts ds st => exact hq
    constructor
    · intro X E h
      cases X with
      | nil => rw [expandL] at h ⊢; exact h
      | cons q rest =>
        rw [expandL_cons_eq] at h ⊢
        cases hh : headOf n c q with
        | error e => rw [hh] at h; simp at h
        | ok h1 =>
          rw [hh] at h
          rw [hHead q h1 hh]
          cases ht : expandL n c rest with
          | error e => rw [ht] at h; simp at h
          | ok t => rw [ht] at h; rw [ihL rest t ht]; exact h
    · intro fs E h
      cases fs with
      | nil => rw [expandF] at h ⊢; exact h
      | cons f fs2 =>
        rw [expandF_cons_eq] at h ⊢
        cases hl : cacheLookup c f with
        | none => rw [hl] at h; simp at h
        | some d =>
          rw [hl] at h
          rw [hext f d hl]
          dsimp only at h ⊢
          cases hi : expandL n c d.data with
          | error e => rw [hi] at h; simp at h
          | ok inner =>
            rw [hi] at h
            rw [ihL d.data inner hi]
            dsimp only at h ⊢
            cases htl : expandF n c fs2 with
            | error e => rw [htl] at h; simp at h
            | ok t =>
              rw [htl] at h
              rw [ihF fs2 t htl]
              exact h

theorem expandL_sublist : ∀ (n : Nat) (c : Cache) (L2 E2 : List Parsed),
    expandL n c L2 = .ok E2 → ∀ L1, L1.Sublist L2 →
    ∃ E1, expandL n c L1 = .ok E1 ∧ E1.Sublist E2 := by
  intro n
  induction n with
  | zero => intro c L2 E2 h; rw [expandL] at h; simp at h
  | succ n ih =>
    intro c L2 E2 h L1 hsub
    cases L2 with
    | nil =>
      have hL1 : L1 = [] := List.sublist_nil.mp hsub
      subst hL1
      rw [expandL] at h
      simp only [Except.ok.injEq] at h
      exact ⟨[], by rw [expandL], by rw [← h]⟩
    | cons q rest2 =>
      rw [expandL_cons_eq] at h
      cases hh : headOf n c q with
      | error e => rw [hh] at h; simp at h
      | ok hd =>
        rw [hh] at h
        cases ht : expandL n c rest2 with
        | error e => rw [ht] at h; simp at h
        | ok t =>
          rw [ht] at h
          simp only [Except.ok.injEq] at h
          cases hsub with
          | cons _ h1 =>
            obtain ⟨E1, hE1, hsubE⟩ := ih c rest2 t ht L1 h1
            refine ⟨E1, (expand_mono n (n + 1) (Nat.le_succ n)).1 c L1 E1 hE1, ?_⟩
            rw [← h]
            exact hsubE.trans (List.sublist_append_right hd t)
          | cons₂ _ h1 =>
            obtain ⟨E1, hE1, hsubE⟩ := ih c rest2 t ht _ h1
            refine ⟨hd ++ E1, ?_, ?_⟩
            · rw [expandL_cons_eq, hh, hE1]
            · rw [← h]; exact hsubE.append_left hd

theorem scanContains_false_all (pat : List Raw) : ∀ ex : List Parsed,
    scanContains pat ex = .ok false →
    ∀ p ∈ ex, sentInst p = true → matchesWords (wordsOfP p) pat ≠ .ok true := by
  intro ex
  induction ex with
  | nil => intro _ p hp; simp at hp
  | cons q rest ih =>
    intro h p hp hps
    cases hq : sentInst q with
    | false =>
      rw [scanContains, if_neg (by simp [hq])] at h
      rcases List.mem_cons.mp hp with rfl | hp2
      · rw [hq] at hps; simp at hps
      · exact ih h p hp2 hps
    | true =>
      rw [scanContains, if_pos (by simp [hq])] at h
      cases hm : matchesWords (wordsOfP q) pat with
      | error e => rw [hm] at h; simp at h
      | ok b =>
        cases b with
        | true => rw [hm] at h; simp at h
        | false =>
          rw [hm] at h
          rcases List.mem_cons.mp hp with rfl | hp2
          · rw [hm]; simp
          · exact ih h p hp2 hps

theorem scanContains_true_ex (pat : List Raw) (ex : List Parsed)
    (h : scanContains pat ex = .ok true) :
    ∃ p, p ∈ ex ∧ sentInst p = true ∧ matchesWords (wordsOfP p) pat = .ok true := by
  obtain ⟨i, p, hget, hs, hm, -⟩ := (scanContains_true_iff pat ex).mp h
  exact ⟨p, List.get?_mem hget, hs, hm⟩

theorem matchesWords_self (ws : List String) :
    matchesWords ws (ws.map .tok) = .ok true := by
  rw [matchesWords, matchesGo_true_iff]
  left
  intro j w hj
  rw [Nat.zero_add, List.get?_map, hj]
  rfl

theorem contains_not_false_of_mem (n : Nat) (c : Cache) (L : List Parsed) (pat : List Raw)
    (p : Parsed) (hp : p ∈ L) (hs : sentInst p = true)
    (hm : matchesWords (wordsOfP p) pat = .ok true) :
    containsExactF n c L pat ≠ .ok false := by
  intro hcon
  rw [containsExactF] at hcon
  cases he : expandL n c L with
  | error e => rw [he] at hcon; simp at hcon
  | ok ex =>
    rw [he] at hcon
    exact scanContains_false_all pat ex hcon p (expandL_mem n c L ex he p hp) hs hm

theorem contains_true_preserved (n : Nat) (c c1 : Cache) (S L1 : List Parsed) (pat : List Raw)
    (h : containsExactF n c S pat = .ok true)
    (hsub : S.Sublist L1) (hext : cacheExt c c1) :
    containsExactF n c1 L1 pat ≠ .ok false := by
  intro hcon
  rw [containsExactF] at h hcon
  cases heS : expandL n c S with
  | error e => rw [heS] at h; simp at h
  | ok E =>
    rw [heS] at h
    obtain ⟨p, hpE, hps, hpm⟩ := scanContains_true_ex pat E h
    cases heL : expandL n c1 L1 with
    | error e => rw [heL] at hcon; simp at hcon
    | ok E1 =>
      rw [heL] at hcon
      have hES : expandL n c1 S = .ok E := (expand_cache_ext n c c1 hext).1 S E heS
      obtain ⟨E2, hE2, hsubE⟩ := expandL_sublist n c1 L1 E1 heL S hsub
      rw [hES] at hE2
      simp only [Except.ok.injEq] at hE2
      subst hE2
      exact scanContains_false_all pat E1 hcon p (hsubE.subset hpE) hps hpm

theorem cleanStmt_spec {s : List String} (h : cleanStmt s = true) :
    s ≠ [] ∧ ∀ w ∈ s, pyIsSpace w = false ∧ stripQuotes w = w := by
  simp only [cleanStmt, Bool.and_eq_true, Bool.not_eq_true', List.all_eq_true,
    beq_iff_eq] at h
  refine ⟨?_, fun w hw => ⟨(h.2 w hw).1, (h.2 w hw).2⟩⟩
  intro hnil
  rw [hnil] at h
  simp at h

theorem isSentenceRaw_map_tok (l : List String) :
    isSentenceRaw (.lst (l.map .tok)) = true := by
  rw [isSentenceRaw, List.all_eq_true]
  intro r hr
  obtain ⟨w, -, rfl⟩ := List.mem_map.mp hr
  rfl

theorem isBlocRaw_map_tok (l : List String) :
    isBlocRaw (.lst (l.map .tok)) = false := by
  cases l with
  | nil => rfl
  | cons x xs =>
    cases xs with
    | nil => rfl
    | cons y ys =>
      cases ys with
      | nil => rfl
      | cons z zs => rfl

theorem asStrings_map_tok (l : List String) : asStrings (l.map .tok) = some l := by
  induction l with
  | nil => rfl
  | cons x xs ih => rw [List.map_cons, asStrings, ih]; rfl

theorem chooseParser_nginx_flat (l : List String) :
    chooseParser NGINX_PARSING_HOOKS (.lst (l.map .tok)) =
      .ok (if rawContains (.lst (l.map .tok)) "include" then .incl else .sentence) := by
  rw [NGINX_PARSING_HOOKS, DEFAULT_PARSING_HOOKS]
  simp only [List.cons_append, List.nil_append]
  rw [chooseParser, if_neg (by simp [isBlocRaw_map_tok])]
  rw [chooseParser]
  cases hinc : rawContains (.lst (l.map .tok)) "include" with
  | true =>
    rw [if_pos (by simp [isSentenceRaw_map_tok, hinc])]
    simp
  | false =>
    rw [if_neg (by simp [isSentenceRaw_map_tok, hinc])]
    rw [chooseParser, if_neg (by simp [isBlocRaw_map_tok])]
    rw [chooseParser, if_pos (by simp [isSentenceRaw_map_tok])]
    simp

theorem wordsOf_cons_nonspace (w : String) (hw : pyIsSpace w = false) (rest : List String) :
    wordsOf (w :: rest) = stripQuotes w :: wordsOf rest := by
  simp [wordsOf, hw]

theorem wordsOf_spaceList_clean : ∀ l : List String,
    (∀ w ∈ l, pyIsSpace w = false ∧ stripQuotes w = w) →
    wordsOf (spaceList l) = l := by
  intro l
  induction l with
  | nil => intro _; rfl
  | cons x xs ih =>
    intro hcl
    have hx := hcl x (by simp)
    cases xs with
    | nil =>
      rw [show spaceList [x] = [x] from rfl, wordsOf_cons_nonspace x hx.1, hx.2]
      rfl
    | cons y ys =>
      have hy := hcl y (by simp)
      have ihy : wordsOf (spaceList (y :: ys)) = y :: ys :=
        ih fun w hw => hcl w (List.mem_cons_of_mem x hw)
      rw [spaceList, if_pos ⟨by simp [hx.1], by simp [hy.1]⟩]
      rw [wordsOf_cons_nonspace x hx.1, wordsOf_cons_space " " (by decide), ihy, hx.2]

theorem parseRaw_clean_node (n : Nat) (env : Env) (c : Cache) (s : List String)
    (p : Parsed) (c2 : Cache)
    (henv : env.hooks = NGINX_PARSING_HOOKS) (hcl : cleanStmt s = true)
    (h : parseRawF n env true (mkRawStmt s) c = .ok (p, c2)) :
    sentInst p = true ∧ sentData p = some (spaceList s) := by
  cases n with
  | zero => simp [parseRawF] at h
  | succ m =>
    simp only [parseRawF, mkRawStmt] at h
    rw [henv, chooseParser_nginx_flat] at h
    cases hinc : rawContains (Raw.lst (List.map Raw.tok s)) "include" with
    | false =>
      rw [hinc] at h
      simp only [Bool.false_eq_true, if_false, asStrings_map_tok, if_true] at h
      simp only [Except.ok.injEq, Prod.mk.injEq] at h
      obtain ⟨hp, -⟩ := h
      rw [← hp]
      exact ⟨rfl, rfl⟩
    | true =>
      rw [hinc] at h
      simp only [if_true, asStrings_map_tok] at h
      cases hpat : (wordsOf (spaceList s)).get? 1 with
      | none => rw [hpat] at h; simp at h
      | some pat =>
        rw [hpat] at h
        dsimp only at h
        cases hpf : parseFilesF m env (env.fs.glob env.cwd pat) c with
        | error e => rw [hpf] at h; simp at h
        | ok c3 =>
          rw [hpf] at h
          simp only [Except.ok.injEq, Prod.mk.injEq] at h
          obtain ⟨hp, -⟩ := h
          rw [← hp]
          exact ⟨rfl, rfl⟩

theorem wordsOfP_setTabs_clean (tabs : String) (p : Parsed) (s : List String)
    (htabs : tabs = "" ∨ pyIsSpace tabs = true)
    (hs : sentInst p = true) (hd : sentData p = some (spaceList s))
    (hcl : ∀ w ∈ s, pyIsSpace w = false ∧ stripQuotes w = w) :
    sentInst (setTabsP tabs p) = true ∧ wordsOfP (setTabsP tabs p) = s := by
  cases p with
  | sentence d =>
    simp only [sentData, Option.some.injEq] at hd
    subst hd
    refine ⟨rfl, ?_⟩
    rw [show wordsOfP (setTabsP tabs (.sentence (spaceList s))) =
      wordsOf (("\n" ++ tabs) :: spaceList s) from rfl]
    rw [wordsOf_cons_space _ (newlineTabs_space tabs htabs)]
    exact wordsOf_spaceList_clean s hcl
  | incl d fs =>
    simp only [sentData, Option.some.injEq] at hd
    subst hd
    refine ⟨rfl, ?_⟩
    rw [show wordsOfP (setTabsP tabs (.incl (spaceList s) fs)) =
      wordsOf (("\n" ++ tabs) :: spaceList s) from rfl]
    rw [wordsOf_cons_space _ (newlineTabs_space tabs htabs)]
    exact wordsOf_spaceList_clean s hcl
  | bloc sv ns cs ct => simp [sentInst] at hs
  | stmts ds st => simp [sentInst] at hs

theorem sublist_insertIdx {α : Type} : ∀ (L : List α) (i : Nat) (a : α),
    L.Sublist (L.insertIdx i a) := by
  intro L
  induction L with
  | nil => intro i a; exact List.nil_sublist _
  | cons b l ih =>
    intro i a
    cases i with
    | zero => exact List.sublist_cons_self a (b :: l)
    | succ j =>
      rw [List.insertIdx_succ_cons l b a j]
      exact List.Sublist.cons₂ b (ih j a)

theorem addStatement_ext (n : Nat) (env : Env) (c : Cache) (L : List Parsed)
    (stmt : Raw) (atTop : Bool) (L2 : List Parsed) (p2 : Parsed) (c2 : Cache)
    (h : addStatementF n env c L stmt atTop = .ok (L2, p2, c2)) :
    L.Sublist L2 ∧ p2 ∈ L2 ∧ cacheExt c c2 := by
  rw [addStatementF] at h
  cases hp : parseRawF n env true stmt c with
  | error e => rw [hp] at h; simp at h
  | ok pc =>
    obtain ⟨p, c3⟩ := pc
    rw [hp] at h
    cases htabs : getTabsL L with
    | error e => rw [htabs] at h; simp at h
    | ok tabs =>
      rw [htabs] at h
      simp only [Except.ok.injEq, Prod.mk.injEq] at h
      obtain ⟨hL, hp2eq, hceq⟩ := h
      refine ⟨?_, ?_, fun f d hf => hceq ▸ (cache_preserved n).1 env true stmt c p c3 hp f d hf⟩
      · rw [← hL]
        cases atTop with
        | true =>
          simp only [if_true]
          cases hCom : isCommentNode (setTabsP tabs p) with
          | true =>
            simp only [hCom, if_true]
            exact List.sublist_cons_self _ L
          | false =>
            simp only [hCom, Bool.false_eq_true, if_false]
            exact (List.sublist_cons_self _ L).trans (sublist_insertIdx _ _ _)
        | false =>
          simp only [Bool.false_eq_true, if_false]
          cases hCom : isCommentNode (setTabsP tabs p) with
          | true =>
            simp only [hCom, if_true]
            exact List.sublist_append_left L _
          | false =>
            simp only [hCom, Bool.false_eq_true, if_false]
            exact (List.sublist_append_left L _).trans (sublist_insertIdx _ _ _)
      · rw [← hL, ← hp2eq]
        cases atTop with
        | true =>
          simp only [if_true]
          cases hCom : isCommentNode (setTabsP tabs p) with
          | true =>
            simp only [hCom, if_true]
            exact List.mem_cons_self _ _
          | false =>
            simp only [hCom, Bool.false_eq_true, if_false]
            exact (sublist_insertIdx _ _ _).subset (List.mem_cons_self _ _)
        | false =>
          simp only [Bool.false_eq_true, if_false]
          cases hCom : isCommentNode (setTabsP tabs p) with
          | true =>
            simp only [hCom, if_true]
            exact List.mem_append_right L (by simp)
          | false =>
            simp only [hCom, Bool.false_eq_true, if_false]
            exact (sublist_insertIdx _ _ _).subset (List.mem_append_right L (by simp))

theorem addStatement_clean_node (n : Nat) (env : Env) (c : Cache) (L : List Parsed)
    (s : List String) (atTop : Bool) (L2 : List Parsed) (p2 : Parsed) (c2 : Cache)
    (henv : env.hooks = NGINX_PARSING_HOOKS) (hcl : cleanStmt s = true)
    (h : addStatementF n env c L (mkRawStmt s) atTop = .ok (L2, p2, c2)) :
    sentInst p2 = true ∧ wordsOfP p2 = s := by
  rw [addStatementF] at h
  cases hp : parseRawF n env true (mkRawStmt s) c with
  | error e => rw [hp] at h; simp at h
  | ok pc =>
    obtain ⟨p, c3⟩ := pc
    rw [hp] at h
    cases htabs : getTabsL L with
    | error e => rw [htabs] at h; simp at h
    | ok tabs =>
      rw [htabs] at h
      simp only [Except.ok.injEq, Prod.mk.injEq] at h
      obtain ⟨-, hp2eq, -⟩ := h
      obtain ⟨hsent, hdata⟩ := parseRaw_clean_node n env c s p c3 henv hcl hp
      obtain ⟨h1, h2⟩ := wordsOfP_setTabs_clean tabs p s (getTabsL_white L tabs htabs)
        hsent hdata (cleanStmt_spec hcl).2
      rw [← hp2eq]
      exact ⟨h1, h2⟩

theorem addDirective_cases (n : Nat) (env : Env) (c : Cache) (S : List Parsed)
    (stmt : Raw) (atTop : Bool) (S2 : List Parsed) (c2 : Cache)
    (h : addDirectiveF n env c S stmt atTop false = .ok (S2, c2)) :
    (containsExactF n c S (stmtPat stmt) = .ok true ∧ S2 = S ∧ c2 = c) ∨
    (containsExactF n c S (stmtPat stmt) = .ok false ∧
      ∃ p2, addStatementF n env c S stmt atTop = .ok (S2, p2, c2)) := by
  simp only [addDirectiveF, Bool.false_eq_true, if_false] at h
  cases hc : containsExactF n c S (stmtPat stmt) with
  | error e => rw [hc] at h; simp at h
  | ok b =>
    rw [hc] at h
    cases b with
    | true =>
      simp only [Except.ok.injEq, Prod.mk.injEq] at h
      exact .inl ⟨rfl, h.1.symm, h.2.symm⟩
    | false =>
      dsimp only at h
      cases hhd : stmtHeadCheck stmt with
      | error e => rw [hhd] at h; simp at h
      | ok hd =>
        rw [hhd] at h
        dsimp only at h
        by_cases hrep : hd ∈ REPEATABLE_DIRECTIVES
        · rw [if_pos hrep] at h
          dsimp only at h
          cases hadd : addStatementF n env c S stmt atTop with
          | error e => rw [hadd] at h; simp at h
          | ok t =>
            obtain ⟨L2, p2, c3⟩ := t
            rw [hadd] at h
            simp only [Except.ok.injEq, Prod.mk.injEq] at h
            exact .inr ⟨rfl, p2, by rw [h.1, h.2]⟩
        · rw [if_neg hrep] at h
          cases hgd : getDirectivesF n c S hd with
          | error e => rw [hgd] at h; simp at h
          | ok ds =>
            rw [hgd] at h
            dsimp only at h
            by_cases hlen : ds.length > 0
            · rw [if_pos hlen] at h; simp at h
            · rw [if_neg hlen] at h
              dsimp only at h
              cases hadd : addStatementF n env c S stmt atTop with
              | error e => rw [hadd] at h; simp at h
              | ok t =>
                obtain ⟨L2, p2, c3⟩ := t
                rw [hadd] at h
                simp only [Except.ok.injEq, Prod.mk.injEq] at h
                exact .inr ⟨rfl, p2, by rw [h.1, h.2]⟩

theorem addDirective_skip_or_err (n : Nat) (env : Env) (c1 : Cache) (L1 : List Parsed)
    (stmt : Raw) (atTop : Bool)
    (h : containsExactF n c1 L1 (stmtPat stmt) ≠ .ok false) :
    addDirectiveF n env c1 L1 stmt atTop false = .ok (L1, c1) ∨
    ∃ e, addDirectiveF n env c1 L1 stmt atTop false = .error e := by
  cases hc : containsExactF n c1 L1 (stmtPat stmt) with
  | error e => exact .inr ⟨e, by rw [addDirectiveF, hc]⟩
  | ok b =>
    cases b with
    | true => exact .inl (by rw [addDirectiveF, hc])
    | false => exact absurd hc h

theorem addDirective_ext (n : Nat) (env : Env) (c : Cache) (S : List Parsed)
    (stmt : Raw) (atTop : Bool) (S2 : List Parsed) (c2 : Cache)
    (h : addDirectiveF n env c S stmt atTop false = .ok (S2, c2)) :
    S.Sublist S2 ∧ cacheExt c c2 := by
  rcases addDirective_cases n env c S stmt atTop S2 c2 h with ⟨-, rfl, rfl⟩ | ⟨-, p2, hadd⟩
  · exact ⟨List.Sublist.refl _, fun f d hf => hf⟩
  · obtain ⟨h1, -, h3⟩ := addStatement_ext n env c S stmt atTop S2 p2 c2 hadd
    exact ⟨h1, h3⟩

theorem addDirectivesGo_ext (n : Nat) (env : Env) (atTop : Bool) :
    ∀ (stmts : List Raw) (c : Cache) (S L1 : List Parsed) (c1 : Cache) (e1 : Option RunErr),
    addDirectivesGo n env c S stmts atTop = ((L1, c1), e1) →
    S.Sublist L1 ∧ cacheExt c c1 := by
  intro stmts
  induction stmts with
  | nil =>
    intro c S L1 c1 e1 h
    simp only [addDirectivesGo, Prod.mk.injEq] at h
    obtain ⟨⟨h1, h2⟩, -⟩ := h
    subst h1
    subst h2
    exact ⟨List.Sublist.refl S, fun f d hf => hf⟩
  | cons s rest ih =>
    intro c S L1 c1 e1 h
    simp only [addDirectivesGo] at h
    cases hstep : addDirectiveF n env c S s atTop false with
    | error e =>
      rw [hstep] at h
      simp only [Prod.mk.injEq] at h
      obtain ⟨⟨h1, h2⟩, -⟩ := h
      subst h1
      subst h2
      exact ⟨List.Sublist.refl S, fun f d hf => hf⟩
    | ok t =>
      obtain ⟨S2, c2⟩ := t
      rw [hstep] at h
      obtain ⟨hs1, hs2⟩ := addDirective_ext n env c S s atTop S2 c2 hstep
      obtain ⟨hr1, hr2⟩ := ih c2 S2 L1 c1 e1 h
      exact ⟨hs1.trans hr1, fun f d hf => hr2 f d (hs2 f d hf)⟩

theorem addDirectives_second_run (n : Nat) (env : Env) (atTop : Bool)
    (henv : env.hooks = NGINX_PARSING_HOOKS) :
    ∀ (stmts : List (List String)) (S : List Parsed) (c : Cache)
      (L1 : List Parsed) (c1 : Cache) (e1 : Option RunErr),
    (∀ s ∈ stmts, cleanStmt s = true) →
    addDirectivesGo n env c S (stmts.map mkRawStmt) atTop = ((L1, c1), e1) →
    (addDirectivesGo n env c1 L1 (stmts.map mkRawStmt) atTop).1 = (L1, c1) := by
  intro stmts
  induction stmts with
  | nil =>
    intro S c L1 c1 e1 hcl h
    simp only [List.map_nil, addDirectivesGo, Prod.mk.injEq] at h
    obtain ⟨⟨h1, h2⟩, -⟩ := h
    subst h1
    subst h2
    rfl
  | cons s rest ih =>
    intro S c L1 c1 e1 hcl h
    have hcls : cleanStmt s = true := hcl s (by simp)
    have hclr : ∀ t ∈ rest, cleanStmt t = true := fun t ht => hcl t (by simp [ht])
    simp only [List.map_cons, addDirectivesGo] at h
    cases hstep : addDirectiveF n env c S (mkRawStmt s) atTop false with
    | error e =>
      rw [hstep] at h
      simp only [Prod.mk.injEq] at h
      obtain ⟨⟨h1, h2⟩, -⟩ := h
      subst h1
      subst h2
      simp only [List.map_cons, addDirectivesGo, hstep]
    | ok t =>
      obtain ⟨S2, c2⟩ := t
      rw [hstep] at h
      have hrest : addDirectivesGo n env c2 S2 (rest.map mkRawStmt) atTop = ((L1, c1), e1) := h
      obtain ⟨hsub2, hext2⟩ :=
        addDirectivesGo_ext n env atTop (rest.map mkRawStmt) c2 S2 L1 c1 e1 hrest
      have hnotfalse : containsExactF n c1 L1 (stmtPat (mkRawStmt s)) ≠ .ok false := by
        rcases addDirective_cases n env c S (mkRawStmt s) atTop S2 c2 hstep with
          ⟨hcontains, rfl, rfl⟩ | ⟨-, p2, hadd⟩
        · exact contains_true_preserved n c2 c1 S2 L1 _ hcontains hsub2 hext2
        · obtain ⟨-, hp2mem, -⟩ := addStatement_ext n env c S (mkRawStmt s) atTop S2 p2 c2 hadd
          obtain ⟨hsent, hwords⟩ :=
            addStatement_clean_node n env c S s atTop S2 p2 c2 henv hcls hadd
          have hm : matchesWords (wordsOfP p2) (stmtPat (mkRawStmt s)) = .ok true := by
            rw [hwords, show stmtPat (mkRawStmt s) = s.map .tok from rfl]
            exact matchesWords_self s
          exact contains_not_false_of_mem n c1 L1 _ p2 (hsub2.subset hp2mem) hsent hm
      rcases addDirective_skip_or_err n env c1 L1 (mkRawStmt s) atTop hnotfalse with hok | ⟨e, herr⟩
      · simp only [List.map_cons, addDirectivesGo, hok]
        exact ih S2 c2 L1 c1 e1 hclr hrest
      · simp only [List.map_cons, addDirectivesGo, herr]

/-- C4: the claim that `add_directives` is idempotent is false in general —
quoted tokens break it, because `words` strips quotes when matching while
the raw statement keeps them, so a second identical call re-adds the
directive.  Amended: for the nginx hook table and statement lists in the
flat form the method documents (nonempty lists of non-whitespace,
quote-free token strings), calling `add_directives` a second time with the
same statements from the state the first call produced changes neither the
child tree nor the shared file store: every statement is either skipped as
already present or aborts the loop with an exception before mutating
anything. -/
theorem C4_idempotent_add (n : Nat) (env : Env) (cache : Cache) (L : List Parsed)
    (stmts : List (List String)) (atTop : Bool)
    (henv : env.hooks = NGINX_PARSING_HOOKS)
    (hclean : ∀ s ∈ stmts, cleanStmt s = true) :
    (addDirectivesF n env
        (addDirectivesF n env cache L (stmts.map mkRawStmt) atTop).1.2
        (addDirectivesF n env cache L (stmts.map mkRawStmt) atTop).1.1
        (stmts.map mkRawStmt) atTop).1 =
      (addDirectivesF n env cache L (stmts.map mkRawStmt) atTop).1 := by
  cases hr : addDirectivesF n env cache L (stmts.map mkRawStmt) atTop with
  | mk fst e1 =>
    cases fst with
    | mk L1 c1 =>
      exact addDirectives_second_run n env atTop henv stmts L cache L1 c1 e1 hclean hr

theorem C4_idempotent_add_witness :
    (addDirectivesF 9 envNoFs
        (addDirectivesF 9 envNoFs [] [] ([["foo", "bar"]].map mkRawStmt) false).1.2
        (addDirectivesF 9 envNoFs [] [] ([["foo", "bar"]].map mkRawStmt) false).1.1
        ([["foo", "bar"]].map mkRawStmt) false).1 =
      (addDirectivesF 9 envNoFs [] [] ([["foo", "bar"]].map mkRawStmt) false).1 :=
  C4_idempotent_add 9 envNoFs [] [] [["foo", "bar"]] false rfl (by decide)

/-- C4 counterexample: adding the single statement `["listen", "\"80\""]`
(a quoted token) to an empty server block and then calling `add_directives`
again with the identical statement list grows the children from 2 (the
listen sentence plus its managed marker) to 4: the duplicate scan compares
the quote-stripped words `["listen", "80"]` against the raw pattern
`["listen", "\"80\""]`, never finds the statement already present, and
re-adds it, so `add_directives` is not idempotent as stated. -/
theorem C4_idempotent_counterexample :
    ((addDirectivesF 9 envNoFs
        (addDirectivesF 9 envNoFs [] [] [.lst [.tok "listen", .tok "\"80\""]] false).1.2
        (addDirectivesF 9 envNoFs [] [] [.lst [.tok "listen", .tok "\"80\""]] false).1.1
        [.lst [.tok "listen", .tok "\"80\""]] false).1.1).length = 4 ∧
    ((addDirectivesF 9 envNoFs [] [] [.lst [.tok "listen", .tok "\"80\""]] false).1.1).length
      = 2 := by
  constructor <;> rfl

end ParserObj
